import Mathlib

/-!
Verification of the genesis phylogenetic-tree core: lexer character
classification and token access (from src/src/utils/lexer.hh), the Newick
format codec (parse/serialize round-trip), the Node/Edge/Link topology
store invariants, traversal orders, and the serialization option flags.

Definitions translated from the C++ headers under src/ keep their source
names.  Components whose implementation files are not part of src/ (the
lexer scanning loop, the Newick processor, the broker-to-topology builder,
the traversal iterators) are modelled from the specification; each such
definition carries a doc comment starting with `Modelled from the spec:`.
-/

namespace Genesis

/-! ## Character classification, from src/src/utils/lexer.hh -/

/-- From `IsWhitespace` in lexer.hh. -/
def IsWhitespace (c : Char) : Bool :=
  (' ' == c) || ('\n' == c) || ('\r' == c) || ('\t' == c) ||
  ('\x08' == c) || ('\x0b' == c) || ('\x0c' == c)

/-- From `IsLetter` in lexer.hh. -/
def IsLetter (c : Char) : Bool :=
  (('a' ≤ c) && (c ≤ 'z')) || (('A' ≤ c) && (c ≤ 'Z')) || (c == '_')

/-- From `IsDigit` in lexer.hh. -/
def IsDigit (c : Char) : Bool :=
  ('0' ≤ c) && (c ≤ '9')

/-- From `IsAlphanum` in lexer.hh. -/
def IsAlphanum (c : Char) : Bool :=
  IsLetter c || IsDigit c

/-- From `IsLeftBracket` in lexer.hh. -/
def IsLeftBracket (c : Char) : Bool :=
  ('(' == c) || ('[' == c) || ('\x7b' == c)

/-- From `IsRightBracket` in lexer.hh. -/
def IsRightBracket (c : Char) : Bool :=
  (')' == c) || (']' == c) || ('\x7d' == c)

/-- From `IsBracket` in lexer.hh. -/
def IsBracket (c : Char) : Bool :=
  IsLeftBracket c || IsRightBracket c

/-- From `IsSign` in lexer.hh. -/
def IsSign (c : Char) : Bool :=
  ('+' == c) || ('-' == c)

/-- From `IsOperator` in lexer.hh. -/
def IsOperator (c : Char) : Bool :=
  ('+' == c) || ('-' == c) ||
  ('*' == c) || ('/' == c) ||
  ('<' == c) || ('>' == c) ||
  ('?' == c) || ('!' == c) ||
  ('^' == c) || ('=' == c) ||
  ('%' == c) || ('&' == c) ||
  ('|' == c) || (',' == c) ||
  (':' == c) || (';' == c)

/-- From `IsQuotemark` in lexer.hh. -/
def IsQuotemark (c : Char) : Bool :=
  ('"' == c) || ('\'' == c)

/-! ## Tokens, from `LexerToken` in src/src/utils/lexer.hh -/

/-- The `LexerToken::TokenType` enumeration from lexer.hh. -/
inductive TokenType where
  | kUnknown
  | kError
  | kEOF
  | kWhite
  | kComment
  | kSymbol
  | kNumber
  | kString
  | kOperator
  | kBracket
deriving DecidableEq, Repr

/-- The `LexerToken` structure from lexer.hh: a token type together with
the line and column where the token occurred and its string value. -/
structure LexerToken where
  type : TokenType
  line : Nat
  column : Nat
  value : String
deriving DecidableEq, Repr

/-- `LexerToken::IsError` from lexer.hh. -/
def LexerToken.IsErrorTok (t : LexerToken) : Bool :=
  t.type == TokenType.kError

/-- `Lexer::operator[]` from lexer.hh: the token at `index` when the index
is in range, and a freshly constructed EOF token
`LexerToken(kEOF, 0, 0, "")` otherwise. -/
def lexerAt (tokens : List LexerToken) (index : Nat) : LexerToken :=
  if h : index < tokens.length then
    tokens.get ⟨index, h⟩
  else
    LexerToken.mk TokenType.kEOF 0 0 ""

/-! ## Tokenizer options, from the `Lexer` class members in lexer.hh -/

/-- The `Lexer` configuration flags with their default member initializers
from lexer.hh (`include_whitespace = false`, `include_comments = false`,
`glue_sign_to_number = true`).  The `comment_mode` flag is
Modelled from the spec: content between `[` and `]` is tokenized as a
Comment when comment mode is enabled — distinguished from generic
brackets specifically for Newick; the generic lexer of lexer.hh treats
`[` and `]` as Bracket tokens, so the mode is off by default. -/
structure LexerOptions where
  include_whitespace : Bool := false
  include_comments : Bool := false
  glue_sign_to_number : Bool := true
  comment_mode : Bool := false
deriving DecidableEq, Repr

/-- The default `Lexer` configuration, i.e. the member initializers of
lexer.hh. -/
def defaultLexerOptions : LexerOptions := {}

/-! ## Scanning helpers.
The implementation file of `Lexer::Analyze` and the `Scan*` member
functions is not part of src/; the scanners below are modelled from the
spec (section 4.1) and from the token format documentation in lexer.hh. -/

/-- Modelled from the spec: advance the line/column position over a list
of consumed characters; a newline starts the next line at column 0
(lexer.hh computes the column as the offset from the previous newline). -/
def advancePos (line col : Nat) : List Char → Nat × Nat
  | [] => (line, col)
  | c :: cs => if c == '\n' then advancePos (line + 1) 0 cs else advancePos line (col + 1) cs

/-- Modelled from the spec: the longest prefix of alphanumeric characters
(the continuation of a Symbol token) together with the rest. -/
def takeSyms : List Char → List Char × List Char
  | [] => ([], [])
  | c :: cs =>
    if IsAlphanum c then
      let p := takeSyms cs
      (c :: p.1, p.2)
    else ([], c :: cs)

/-- Modelled from the spec: the longest prefix of digits together with the
rest (used by the Number scanner). -/
def takeDigits : List Char → List Char × List Char
  | [] => ([], [])
  | c :: cs =>
    if IsDigit c then
      let p := takeDigits cs
      (c :: p.1, p.2)
    else ([], c :: cs)

/-- Modelled from the spec: scan up to (and consuming) the delimiter `d`,
returning the content before it; `none` when the delimiter never occurs
(an unterminated comment). -/
def takeUntil (d : Char) : List Char → Option (List Char × List Char)
  | [] => none
  | c :: cs =>
    if c == d then some ([], cs)
    else (takeUntil d cs).map fun p => (c :: p.1, p.2)

/-- Translation of an escaped character inside a quoted string, from the
lexer.hh documentation: backslash escapes where \n, \t and \r are
translated into their whitespace representation. -/
def escChar (c : Char) : Char :=
  if c == 'n' then '\n'
  else if c == 't' then '\t'
  else if c == 'r' then '\r'
  else c

mutual
/-- Modelled from the spec: scan the inside of a quoted string up to the
closing quote mark `q`, translating backslash escapes; `none` when the
string is unterminated. -/
def takeQuoted (q : Char) : List Char → Option (List Char × List Char)
  | [] => none
  | c :: cs =>
    if c == '\\' then takeQuotedEsc q cs
    else if c == q then some ([], cs)
    else (takeQuoted q cs).map fun p => (c :: p.1, p.2)
termination_by structural cs => cs
/-- The continuation of a quoted-string scan right after a backslash: the
next character is translated and the scan continues; a backslash at the
end of the input is an unterminated string. -/
def takeQuotedEsc (q : Char) : List Char → Option (List Char × List Char)
  | [] => none
  | e :: cs2 => (takeQuoted q cs2).map fun p => (escChar e :: p.1, p.2)
termination_by structural cs => cs
end

/-- Split an optional leading sign character off the input (the `[+-]`
prefixes inside a Number literal). -/
def splitSign (cs : List Char) : List Char × List Char :=
  match cs with
  | [] => ([], [])
  | d :: rest => if IsSign d then ([d], rest) else ([], cs)

/-- Modelled from the spec: the optional exponent part `[eE[+-]789]` of a
Number token, appended to the already scanned characters `acc`; an `e`
that is not followed by digits is an invalid number. -/
def scanExp (acc : List Char) (cs : List Char) : Option (List Char × List Char) :=
  match cs with
  | [] => some (acc, [])
  | c :: cs1 =>
    if c == 'e' || c == 'E' then
      let p := splitSign cs1
      let q := takeDigits p.2
      if q.1 = [] then none
      else some (acc ++ c :: p.1 ++ q.1, q.2)
    else some (acc, cs)

/-- Modelled from the spec: the optional fraction part `[.456]` of a
Number token followed by its optional exponent; a dot that is not
followed by digits is an invalid number. -/
def scanFrac (acc : List Char) (cs : List Char) : Option (List Char × List Char) :=
  match cs with
  | '.' :: cs3 =>
    let q := takeDigits cs3
    if q.1 = [] then none
    else scanExp (acc ++ '.' :: q.1) q.2
  | _ => scanExp acc cs

/-- Modelled from the spec: scan a Number token in the format
`[+-]123[.456][eE[+-]789]` from lexer.hh; `none` when the literal is
invalid (no digits after a sign, a fraction dot, or an exponent mark). -/
def scanNumber (cs : List Char) : Option (List Char × List Char) :=
  let s := splitSign cs
  let d := takeDigits s.2
  if d.1 = [] then none
  else scanFrac (s.1 ++ d.1) d.2

/-- Result of scanning one token: a token to append, characters to drop
(excluded whitespace or comment), or an error token that halts the run.
Modelled from the spec: on malformed input the lexer emits a single Error
token and halts. -/
inductive ScanOut where
  | emit (t : LexerToken) (rest : List Char) (line col : Nat)
  | drop (rest : List Char) (line col : Nat)
  | fail (t : LexerToken)

/-- Modelled from the spec: scan a single token at the current position.
Dispatch: whitespace run, comment (in comment mode), Symbol, Number
(a sign glued to a following digit when `glue_sign_to_number` is set),
String, Operator, Bracket; anything else is an error. -/
def scanStep (opts : LexerOptions) (cs : List Char) (line col : Nat) : ScanOut :=
  match cs with
  | [] => ScanOut.drop [] line col
  | c :: rest =>
    if IsWhitespace c then
      let ws := (c :: rest).takeWhile IsWhitespace
      let rest2 := (c :: rest).dropWhile IsWhitespace
      let p := advancePos line col ws
      if opts.include_whitespace then
        ScanOut.emit (LexerToken.mk TokenType.kWhite line col (String.mk ws)) rest2 p.1 p.2
      else
        ScanOut.drop rest2 p.1 p.2
    else if opts.comment_mode && c == '[' then
      match takeUntil ']' rest with
      | some q =>
        let p := advancePos line col ('[' :: q.1 ++ [']'])
        if opts.include_comments then
          ScanOut.emit (LexerToken.mk TokenType.kComment line col (String.mk q.1)) q.2 p.1 p.2
        else
          ScanOut.drop q.2 p.1 p.2
      | none => ScanOut.fail (LexerToken.mk TokenType.kError line col "unterminated comment")
    else if IsLetter c then
      let p := takeSyms rest
      ScanOut.emit (LexerToken.mk TokenType.kSymbol line col (String.mk (c :: p.1)))
        p.2 line (col + 1 + p.1.length)
    else if IsDigit c ||
        (opts.glue_sign_to_number && IsSign c &&
          (match rest with | d :: _ => IsDigit d | [] => false)) then
      match scanNumber (c :: rest) with
      | some q =>
        ScanOut.emit (LexerToken.mk TokenType.kNumber line col (String.mk q.1))
          q.2 line (col + q.1.length)
      | none => ScanOut.fail (LexerToken.mk TokenType.kError line col "invalid number")
    else if IsQuotemark c then
      match takeQuoted c rest with
      | some q =>
        let consumed := (c :: rest).take ((c :: rest).length - q.2.length)
        let p := advancePos line col consumed
        ScanOut.emit (LexerToken.mk TokenType.kString line col (String.mk q.1)) q.2 p.1 p.2
      | none => ScanOut.fail (LexerToken.mk TokenType.kError line col "unterminated string")
    else if IsOperator c then
      ScanOut.emit (LexerToken.mk TokenType.kOperator line col (String.mk [c])) rest line (col + 1)
    else if IsBracket c then
      ScanOut.emit (LexerToken.mk TokenType.kBracket line col (String.mk [c])) rest line (col + 1)
    else
      ScanOut.fail (LexerToken.mk TokenType.kError line col "invalid character")

/-- Modelled from the spec: the fueled scanning loop of `Lexer::Analyze`.
Each step consumes at least one character, so fuel equal to the input
length suffices; on an error token the loop halts immediately. -/
def analyzeLoop (opts : LexerOptions) : Nat → List Char → Nat → Nat → List LexerToken
  | 0, _, _, _ => []
  | _ + 1, [], _, _ => []
  | fuel + 1, c :: cs, line, col =>
    match scanStep opts (c :: cs) line col with
    | ScanOut.emit t rest l2 c2 => t :: analyzeLoop opts fuel rest l2 c2
    | ScanOut.drop rest l2 c2 => analyzeLoop opts fuel rest l2 c2
    | ScanOut.fail t => [t]

/-- Modelled from the spec: `Lexer::Analyze` — tokenize a whole string,
starting at line 1, column 0 (lexer.hh initializes `line_ = 1` and
computes columns from the previous newline). -/
def analyze (opts : LexerOptions) (text : String) : List LexerToken :=
  analyzeLoop opts text.data.length text.data 1 0

/-! ## Bracket validation.
`Lexer::ValidateBrackets` is declared in lexer.hh but its implementation
file is not part of src/. -/

/-- The closing bracket matching an opening one. -/
def closingOf (c : Char) : Char :=
  if c == '(' then ')'
  else if c == '[' then ']'
  else if c == '\x7b' then '\x7d'
  else ')'

/-- The sequence of bracket characters of a token list: the first char of
the value of every token of type kBracket (cf. `LexerToken::IsBracket`,
which inspects `value_[0]`). -/
def bracketChars (ts : List LexerToken) : List Char :=
  ts.filterMap fun t =>
    if t.type == TokenType.kBracket then t.value.data.head? else none

/-- Modelled from the spec: the stack walk of `ValidateBrackets` over a
list of bracket characters — push every opening bracket, and require each
closing bracket to match the type of the top of the stack. -/
def bracketWalk : List Char → List Char → Bool
  | stack, [] => stack.isEmpty
  | stack, c :: cs =>
    if IsLeftBracket c then bracketWalk (c :: stack) cs
    else
      match stack with
      | [] => false
      | o :: stack2 => (closingOf o == c) && bracketWalk stack2 cs

/-- Modelled from the spec: `Lexer::ValidateBrackets` — a separate pass
over the token sequence that checks that brackets are balanced and
matched in type. -/
def validateBrackets (ts : List LexerToken) : Bool :=
  bracketWalk [] (bracketChars ts)

/-- The bracket characters `cs`, read left to right, exactly close the
pending opening brackets `stack` (innermost first) and are themselves
balanced and matched in type.  `Matches [] cs` is the specification-side
meaning of a balanced, type-matched bracket sequence. -/
inductive Matches : List Char → List Char → Prop where
  | mnil : Matches [] []
  | mopen {stack cs} (c : Char) : IsLeftBracket c = true →
      Matches (c :: stack) cs → Matches stack (c :: cs)
  | mclose {stack cs} (c : Char) : Matches stack cs →
      Matches (c :: stack) (closingOf c :: cs)

/-- A bracket word of the Dyck language over the three bracket pairs:
empty, or an opening bracket, a balanced inside, its matching closing
bracket, and a balanced remainder. -/
inductive Balanced : List Char → Prop where
  | nil : Balanced []
  | node {inner rest} (c : Char) : IsLeftBracket c = true →
      Balanced inner → Balanced rest →
      Balanced (c :: inner ++ closingOf c :: rest)

/-! ## The Newick tree and format codec.
The NewickProcessor / NewickBroker implementation files are not part of
src/; parse and serialize are modelled from the spec (section 4.3 grammar
and options), with node payloads (`name`) and edge payloads
(`branch_length`) as in src/lib/tree/default_tree.hpp.  Branch lengths are
carried as their numeric literals. -/

mutual
/-- A parsed Newick node: name, optional branch-length literal, comments,
tags, and the ordered children (the ring order of the topology). -/
inductive NTree where
  | node : List Char → Option (List Char) → List (List Char) → List (List Char) → NForest → NTree
/-- An ordered list of Newick subtrees. -/
inductive NForest where
  | nil : NForest
  | cons : NTree → NForest → NForest
end

/-- The four serialization option flags of the Newick processor.  They are
process-wide static data members of `NewickProcessor` in the source (set
by assignment, e.g. `NewickProcessor::print_names = true` in the main
translation unit), not parameters of the serialization call. -/
structure NewickProcessorFlags where
  print_names : Bool
  print_branch_lengths : Bool
  print_comments : Bool
  print_tags : Bool
deriving DecidableEq, Repr

/-- All four print options enabled. -/
def allFlags : NewickProcessorFlags :=
  { print_names := true, print_branch_lengths := true,
    print_comments := true, print_tags := true }

/-- Whether a name can be printed as a bare Symbol token: a letter or
underscore followed by alphanumerics (lexer.hh Symbol format). -/
def isSymbolShape : List Char → Bool
  | [] => false
  | c :: rest => IsLetter c && rest.all IsAlphanum

/-- The escape sequence of one character inside a quoted name (backslash
escapes for the backslash, the quote mark, \n, \t, \r). -/
def escSeq (c : Char) : List Char :=
  if c == '\\' then ['\\', '\\']
  else if c == '\'' then ['\\', '\'']
  else if c == '\n' then ['\\', 'n']
  else if c == '\t' then ['\\', 't']
  else if c == '\r' then ['\\', 'r']
  else [c]

/-- Escape every character of a quoted name's content. -/
def escapeChars : List Char → List Char
  | [] => []
  | c :: cs => escSeq c ++ escapeChars cs

/-- Modelled from the spec: print a node name — nothing for an unnamed
node, a bare Symbol when possible, and a quoted String otherwise. -/
def printName (nm : List Char) : List Char :=
  match nm with
  | [] => []
  | _ =>
    if isSymbolShape nm then nm
    else '\'' :: escapeChars nm ++ ['\'']

/-- Modelled from the spec: print an optional branch length as `:` and the
numeric literal. -/
def printBlen : Option (List Char) → List Char
  | none => []
  | some l => ':' :: l

/-- Modelled from the spec: print comments, each as `[` content `]`. -/
def printCms (cms : List (List Char)) : List Char :=
  cms.flatMap fun c => '[' :: c ++ [']']

/-- Modelled from the spec: print tags, each as `\x7b` content `\x7d`. -/
def printTgs (tgs : List (List Char)) : List Char :=
  tgs.flatMap fun g => '\x7b' :: g ++ ['\x7d']

mutual
/-- Modelled from the spec: serialize one subtree — the parenthesized
child list (children before the node, as Newick closes children before
naming the parent), then name, branch length, comments and tags, each
emitted only when the corresponding print option is set.  A leaf prints
no parentheses. -/
def printS (f : NewickProcessorFlags) : NTree → List Char
  | NTree.node nm bl cms tgs ch =>
    (match ch with
     | NForest.nil => []
     | _ => '(' :: printF f ch ++ [')']) ++
    (if f.print_names then printName nm else []) ++
    (if f.print_branch_lengths then printBlen bl else []) ++
    (if f.print_comments then printCms cms else []) ++
    (if f.print_tags then printTgs tgs else [])
termination_by structural t => t
/-- Print the children of a node separated by commas. -/
def printF (f : NewickProcessorFlags) : NForest → List Char
  | NForest.nil => []
  | NForest.cons t rest =>
    printS f t ++
    (match rest with
     | NForest.nil => []
     | _ => ',' :: printF f rest)
termination_by structural t => t
end

/-- Modelled from the spec: `serialize(tree, options)` — the subtree, the
trailing `;`, and a single trailing newline (spec section 6). -/
def serializeNewick (f : NewickProcessorFlags) (t : NTree) : String :=
  String.mk (printS f t ++ [';', '\n'])

/-- Drop leading whitespace between tokens. -/
def skipWs (cs : List Char) : List Char :=
  cs.dropWhile IsWhitespace

/-- Modelled from the spec: parse an optional node name — a quoted String
(`none` when unterminated), a bare Symbol, or the empty name. -/
def parseName (cs : List Char) : Option (List Char × List Char) :=
  let cs0 := skipWs cs
  match cs0 with
  | [] => some ([], cs0)
  | c :: cs1 =>
    if IsQuotemark c then takeQuoted c cs1
    else if IsLetter c then
      let p := takeSyms cs1
      some (c :: p.1, p.2)
    else some ([], cs0)

/-- Modelled from the spec: parse an optional `:` branch length; a `:`
whose following characters do not form a valid Number literal is a parse
failure. -/
def parseBlen (cs : List Char) : Option (Option (List Char) × List Char) :=
  let cs0 := skipWs cs
  match cs0 with
  | ':' :: cs1 => (scanNumber (skipWs cs1)).map fun p => (some p.1, p.2)
  | _ => some (none, cs0)

/-- Modelled from the spec: parse the comments and tags attached after a
node's name and branch length — any interleaving of `[` comment `]` and
`\x7b` tag `\x7d`, collected order-preservingly into the two lists of the
broker element. -/
def parseDecor : Nat → List Char → Option ((List (List Char) × List (List Char)) × List Char)
  | 0, _ => none
  | fuel + 1, cs =>
    let cs0 := skipWs cs
    match cs0 with
    | '[' :: cs1 =>
      (takeUntil ']' cs1).bind fun q =>
        (parseDecor fuel q.2).map fun r => ((q.1 :: r.1.1, r.1.2), r.2)
    | '\x7b' :: cs1 =>
      (takeUntil '\x7d' cs1).bind fun q =>
        (parseDecor fuel q.2).map fun r => ((r.1.1, q.1 :: r.1.2), r.2)
    | _ => some (([], []), cs0)

mutual
/-- Modelled from the spec: parse one subtree of the grammar
`subtree := leaf | internal`, with `internal := "(" subtree ("," subtree)*
")" [name] [":" length]` and optional comments and tags. -/
def parseSubtree : Nat → List Char → Option (NTree × List Char)
  | 0, _ => none
  | fuel + 1, cs =>
    let cs0 := skipWs cs
    match cs0 with
    | '(' :: cs1 =>
      (parseForest fuel cs1).bind fun pf =>
      (parseName pf.2).bind fun pn =>
      (parseBlen pn.2).bind fun pb =>
      (parseDecor fuel pb.2).map fun pd =>
        (NTree.node pn.1 pb.1 pd.1.1 pd.1.2 pf.1, pd.2)
    | _ =>
      (parseName cs0).bind fun pn =>
      (parseBlen pn.2).bind fun pb =>
      (parseDecor fuel pb.2).map fun pd =>
        (NTree.node pn.1 pb.1 pd.1.1 pd.1.2 NForest.nil, pd.2)
termination_by structural fuel => fuel
/-- Modelled from the spec: parse the comma-separated children of an
internal node, consuming the closing parenthesis. -/
def parseForest : Nat → List Char → Option (NForest × List Char)
  | 0, _ => none
  | fuel + 1, cs =>
    (parseSubtree fuel cs).bind fun pt =>
      match skipWs pt.2 with
      | ',' :: cs2 => (parseForest fuel cs2).map fun pf => (NForest.cons pt.1 pf.1, pf.2)
      | ')' :: cs2 => some (NForest.cons pt.1 NForest.nil, cs2)
      | _ => none
termination_by structural fuel => fuel
end

/-- Modelled from the spec: `parse(text)` — one subtree, the mandatory
trailing `;`, and nothing but whitespace after it.  The fuel is one more
than the input length, which suffices for every input the parser accepts. -/
def parseNewick (s : String) : Option NTree :=
  match parseSubtree (s.data.length + 1) s.data with
  | some p =>
    match skipWs p.2 with
    | ';' :: rest2 => if skipWs rest2 = [] then some p.1 else none
    | _ => none
  | none => none

mutual
/-- The parser fuel sufficient for one subtree. -/
def fuelS : NTree → Nat
  | NTree.node _ _ cms tgs ch => Nat.max (fuelF ch) (cms.length + tgs.length + 1) + 1
termination_by structural t => t
/-- The parser fuel sufficient for a child list. -/
def fuelF : NForest → Nat
  | NForest.nil => 0
  | NForest.cons t f => Nat.max (fuelS t) (fuelF f) + 1
termination_by structural f => f
end

/-- A sign-or-nothing prefix of a Number literal. -/
def SignOpt (s : List Char) : Prop :=
  s = [] ∨ ∃ c, IsSign c = true ∧ s = [c]

/-- A nonempty run of digits. -/
def DigitRun (d : List Char) : Prop :=
  d ≠ [] ∧ ∀ c ∈ d, IsDigit c = true

/-- An optional fraction part `.digits` of a Number literal. -/
def FracOpt (f : List Char) : Prop :=
  f = [] ∨ ∃ d, DigitRun d ∧ f = '.' :: d

/-- An optional exponent part `eE[+-]digits` of a Number literal. -/
def ExpOpt (x : List Char) : Prop :=
  x = [] ∨ ∃ e s d, (e = 'e' ∨ e = 'E') ∧ SignOpt s ∧ DigitRun d ∧ x = e :: (s ++ d)

/-- The shape of a valid Number literal `[+-]123[.456][eE[+-]789]` from
lexer.hh. -/
def NumberShape (lit : List Char) : Prop :=
  ∃ s d f x, SignOpt s ∧ DigitRun d ∧ FracOpt f ∧ ExpOpt x ∧ lit = s ++ d ++ f ++ x

mutual
/-- Well-formedness of a parsed tree: branch-length literals have Number
shape, comments contain no closing `]`, tags contain no closing brace.
Every tree produced by the parser is well formed. -/
def WFt : NTree → Prop
  | NTree.node _ bl cms tgs ch =>
    (∀ lit, bl = some lit → NumberShape lit) ∧
    (∀ c ∈ cms, ']' ∉ c) ∧ (∀ g ∈ tgs, '\x7d' ∉ g) ∧ WFf ch
termination_by structural t => t
/-- Well-formedness of every tree of a forest. -/
def WFf : NForest → Prop
  | NForest.nil => True
  | NForest.cons t f => WFt t ∧ WFf f
termination_by structural f => f
end

/-! ## Traversal orders.
The iterator implementation files are not part of src/. -/

mutual
/-- Modelled from the spec: preorder — visit a node before its children,
children in ring order. -/
def preS : NTree → List (List Char)
  | NTree.node nm _ _ _ ch => nm :: preF ch
termination_by structural t => t
/-- Preorder over a child list. -/
def preF : NForest → List (List Char)
  | NForest.nil => []
  | NForest.cons t f => preS t ++ preF f
termination_by structural f => f
end

mutual
/-- Modelled from the spec: postorder — visit a node after all its
children. -/
def postS : NTree → List (List Char)
  | NTree.node nm _ _ _ ch => postF ch ++ [nm]
termination_by structural t => t
/-- Postorder over a child list. -/
def postF : NForest → List (List Char)
  | NForest.nil => []
  | NForest.cons t f => postS t ++ postF f
termination_by structural f => f
end

/-- The preorder node-name sequence as strings. -/
def preorderNames (t : NTree) : List String :=
  (preS t).map String.mk

/-- The postorder node-name sequence as strings. -/
def postorderNames (t : NTree) : List String :=
  (postS t).map String.mk

/-! ## The topology store: Node / Edge / Link arenas.
`TreeEdge` keeps a primary link (toward the root) and a secondary link
(away from the root), cf. `TreeEdge::primary_link` / `secondary_link` in
src/lib/tree/tree_edge.tpp.  The builder that creates the linked
structure from a parsed Newick tree is not part of src/ and is modelled
from the spec (sections 3 and 4.2): nodes, edges and links live in
arenas addressed by dense integer indices, every link knows its node, its
edge, its `outer` partner on the other side of the edge and the `next`
link of its node's ring. -/

/-- A link record: one endpoint of an edge as seen from one node. -/
structure TreeLinkRec where
  next_ : Nat
  outer : Nat
  node : Nat
  edge : Nat
deriving DecidableEq, Repr

/-- An edge record: the primary link (toward the root), the secondary
link (away from the root), and the edge payload
(`DefaultTreeEdgeData::branch_length`). -/
structure TreeEdgeRec where
  link_p : Nat
  link_s : Nat
  branch_length : Option (List Char)
deriving DecidableEq, Repr

/-- A node record: its ring entry link and the node payload
(`DefaultTreeNodeData::name`). -/
structure TreeNodeRec where
  link : Nat
  name : List Char
deriving DecidableEq, Repr

/-- The three arenas of the topology store. -/
structure Topology where
  nodes : List TreeNodeRec
  edges : List TreeEdgeRec
  links : List TreeLinkRec
deriving DecidableEq, Repr

/-- The number of children of a forest. -/
def lengthF : NForest → Nat
  | NForest.nil => 0
  | NForest.cons _ f => lengthF f + 1

/-- The branch-length payloads of the children of a forest, in ring
order; the edge from a node to its j-th child carries the j-th entry. -/
def blensF : NForest → List (Option (List Char))
  | NForest.nil => []
  | NForest.cons (NTree.node _ bl _ _ _) f => bl :: blensF f

/-- Modelled from the spec: the `2*k` links allocated when a node with
`k` children is built — for child `j`, the primary link at index
`base + 2*j` (in the parent ring) and the secondary link at index
`base + 2*j + 1` (the child's ring entry), mutually `outer`-paired and
both referencing edge `eBase + j`.  A secondary link's node and `next`
are fixed up when the child itself is built. -/
def mkPairLinks (nIdx base eBase k : Nat) (incoming : Option Nat) : List TreeLinkRec :=
  (List.range (2 * k)).map fun m =>
    if m % 2 = 0 then
      { node := nIdx, edge := eBase + m / 2, outer := base + m + 1,
        next_ :=
          if m / 2 + 1 < k then base + m + 2
          else match incoming with | some i => i | none => base }
    else
      { node := 0, edge := eBase + m / 2, outer := base + m - 1, next_ := 0 }

/-- Fix up the node back-reference and ring `next` of an already
allocated link, leaving its `outer` and `edge` references untouched. -/
def fixLink (i newNode newNext : Nat) (st : Topology) : Topology :=
  match st.links[i]? with
  | some l =>
    { st with links := st.links.set i { l with node := newNode, next_ := newNext } }
  | none => st

mutual
/-- Modelled from the spec: build the topology of a subtree.  `incoming`
is the index of the secondary link of the edge from the parent (already
allocated by the parent), `none` for the root.  Allocates the node, one
edge and an outer-paired link pair per child, closes the node's ring, and
recurses into the children. -/
def buildS : NTree → Option Nat → Topology → Topology
  | NTree.node nm _ _ _ ch, incoming, st =>
    let nIdx := st.nodes.length
    let base := st.links.length
    let eBase := st.edges.length
    let k := lengthF ch
    let ringHead := match incoming with | some i => i | none => base
    let st1 : Topology :=
      { nodes := st.nodes ++ [{ link := ringHead, name := nm }],
        edges := st.edges ++
          (List.enum (blensF ch)).map (fun p =>
            { link_p := base + 2 * p.1, link_s := base + 2 * p.1 + 1,
              branch_length := p.2 }),
        links := st.links ++ mkPairLinks nIdx base eBase k incoming }
    let st2 :=
      match incoming with
      | some i => fixLink i nIdx (if k = 0 then i else base) st1
      | none => st1
    buildF ch 0 base st2
termination_by structural t => t
/-- Build the children of a node; child `j`'s ring entry is the secondary
link at `base + 2*j + 1`. -/
def buildF : NForest → Nat → Nat → Topology → Topology
  | NForest.nil, _, _, st => st
  | NForest.cons t f, j, base, st =>
    buildF f (j + 1) base (buildS t (some (base + 2 * j + 1)) st)
termination_by structural f => f
end

/-- Modelled from the spec: construct the topology store of a parsed
Newick tree, starting from empty arenas with the parsed root as the
designated root. -/
def buildTopology (t : NTree) : Topology :=
  buildS t none ⟨[], [], []⟩

/-- The mutual `outer` pairing invariant of the spec: for every edge `e`,
the outer link of `e`'s primary link is `e`'s secondary link and vice
versa (and both link indices are allocated). -/
def pairedInv (st : Topology) : Prop :=
  ∀ e ∈ st.edges, ∃ lp ls,
    st.links[e.link_p]? = some lp ∧
    st.links[e.link_s]? = some ls ∧
    lp.outer = e.link_s ∧ ls.outer = e.link_p

/-! ## The Newick processor's static print options.
In the source the four print options are static data members of
`NewickProcessor`, assigned from client code (e.g.
`NewickProcessor::print_names = true` in the main translation unit) and
read by the serialization functions; they are not parameters of
`NewickProcessor::ToString`.  A client session is modelled as a sequence
of flag assignments and serialization calls over that static state. -/

/-- One client step: assign the static print flags, or call
`NewickProcessor::ToString(tree)` (which takes no option arguments). -/
inductive ProcStep where
  | setFlags : NewickProcessorFlags → ProcStep
  | toNewickString : NTree → ProcStep

/-- Modelled from the spec: run a client session against the static flag
state, collecting the output of every serialization call.  A
serialization call reads the current static flags and does not modify
them. -/
def runSteps : List ProcStep → NewickProcessorFlags → List String
  | [], _ => []
  | ProcStep.setFlags f :: rest, _ => runSteps rest f
  | ProcStep.toNewickString t :: rest, f => serializeNewick f t :: runSteps rest f

/-- The static flag state after a client session. -/
def flagsAfter : List ProcStep → NewickProcessorFlags → NewickProcessorFlags
  | [], f => f
  | ProcStep.setFlags g :: rest, _ => flagsAfter rest g
  | ProcStep.toNewickString _ :: rest, f => flagsAfter rest f

/-! ## Auxiliary predicates used by the proofs. -/

/-- The characters `cs` close the pending opening brackets `stack` in
order: a balanced prefix closes the innermost pending bracket, and so on. -/
def ClosedFrom : List Char → List Char → Prop
  | [], cs => Balanced cs
  | o :: st, cs => ∃ a b, cs = a ++ closingOf o :: b ∧ Balanced a ∧ ClosedFrom st b

/-- The continuations that can follow a printed subtree inside a printed
Newick string: a sibling separator, a closing parenthesis, or the final
semicolon. -/
def RestOk (R : List Char) : Prop :=
  ∃ r rs, R = r :: rs ∧ (r = ',' ∨ r = ')' ∨ r = ';')

/-- The continuations that can follow a printed branch length. -/
def BlenFollow (Y : List Char) : Prop :=
  ∃ r rs, Y = r :: rs ∧ (r = '[' ∨ r = '\x7b' ∨ r = ',' ∨ r = ')' ∨ r = ';')

/-- The continuations that can follow a printed node name. -/
def NameFollow (X : List Char) : Prop :=
  ∃ r rs, X = r :: rs ∧
    (r = ':' ∨ r = '[' ∨ r = '\x7b' ∨ r = ',' ∨ r = ')' ∨ r = ';')

/-- A continuation that cannot extend a Number literal. -/
def DelimOk (rest : List Char) : Prop :=
  ∀ r, rest.head? = some r → IsDigit r = false ∧ r ≠ '.' ∧ r ≠ 'e' ∧ r ≠ 'E'

/-! # Theorems -/

/-! ## Character classification facts -/

theorem IsWhitespace_iff {c : Char} :
    IsWhitespace c = true ↔
      c = ' ' ∨ c = '\n' ∨ c = '\r' ∨ c = '\t' ∨
      c = '\x08' ∨ c = '\x0b' ∨ c = '\x0c' := by
  simp only [IsWhitespace, Bool.or_eq_true, beq_iff_eq]
  tauto

theorem IsSign_iff {c : Char} : IsSign c = true ↔ c = '+' ∨ c = '-' := by
  simp only [IsSign, Bool.or_eq_true, beq_iff_eq]
  tauto

theorem letter_not_ws {c : Char} (h : IsLetter c = true) : IsWhitespace c = false := by
  cases hw : IsWhitespace c
  · rfl
  · rw [IsWhitespace_iff] at hw
    rcases hw with rfl | rfl | rfl | rfl | rfl | rfl | rfl <;>
      exact absurd h (by decide)

theorem digit_not_ws {c : Char} (h : IsDigit c = true) : IsWhitespace c = false := by
  cases hw : IsWhitespace c
  · rfl
  · rw [IsWhitespace_iff] at hw
    rcases hw with rfl | rfl | rfl | rfl | rfl | rfl | rfl <;>
      exact absurd h (by decide)

theorem sign_not_ws {c : Char} (h : IsSign c = true) : IsWhitespace c = false := by
  rcases IsSign_iff.mp h with rfl | rfl <;> decide

theorem digit_not_sign {c : Char} (h : IsDigit c = true) : IsSign c = false := by
  cases hs : IsSign c
  · rfl
  · rcases IsSign_iff.mp hs with rfl | rfl <;> exact absurd h (by decide)

theorem digit_not_letter {c : Char} (h : IsDigit c = true) : IsLetter c = false := by
  cases hl : IsLetter c
  · rfl
  · exfalso
    simp only [IsDigit, Bool.and_eq_true, decide_eq_true_eq] at h
    simp only [IsLetter, Bool.or_eq_true, Bool.and_eq_true, decide_eq_true_eq,
      beq_iff_eq] at hl
    rcases hl with (⟨h1, _⟩ | ⟨h1, _⟩) | h1
    · exact absurd (le_trans h1 h.2) (by decide)
    · exact absurd (le_trans h1 h.2) (by decide)
    · subst h1
      exact absurd h.2 (by decide)

theorem letter_not_quote {c : Char} (h : IsLetter c = true) : IsQuotemark c = false := by
  cases hq : IsQuotemark c
  · rfl
  · exfalso
    simp only [IsQuotemark, Bool.or_eq_true, beq_iff_eq] at hq
    rcases hq with rfl | rfl <;> exact absurd h (by decide)

theorem letter_not_lparen {c : Char} (h : IsLetter c = true) : c ≠ '(' := by
  intro hc
  subst hc
  exact absurd h (by decide)

theorem digit_not_quote {c : Char} (h : IsDigit c = true) : IsQuotemark c = false := by
  cases hq : IsQuotemark c
  · rfl
  · exfalso
    simp only [IsQuotemark, Bool.or_eq_true, beq_iff_eq] at hq
    rcases hq with rfl | rfl <;> exact absurd h (by decide)

/-! ## C6 and C10: character classification and token access -/

/-- C6: the tokenizer's character classification is exact — a character
is an Operator character if and only if it is one of the sixteen
characters `+ - * / < > ? ! ^ = % & | , : ;`, and a Bracket character if
and only if it is one of the six characters `( ) [ ] { }`
(`IsOperator`, `IsBracket` in lexer.hh). -/
theorem operator_bracket_charset (c : Char) :
    (IsOperator c = true ↔
      c ∈ ['+', '-', '*', '/', '<', '>', '?', '!', '^', '=',
           '%', '&', '|', ',', ':', ';']) ∧
    (IsBracket c = true ↔
      c ∈ ['(', ')', '[', ']', '\x7b', '\x7d']) := by
  constructor
  · simp only [IsOperator, Bool.or_eq_true, beq_iff_eq, List.mem_cons,
      List.not_mem_nil, or_false, or_assoc]
    constructor
    · rintro (rfl|rfl|rfl|rfl|rfl|rfl|rfl|rfl|rfl|rfl|rfl|rfl|rfl|rfl|rfl|rfl) <;> simp
    · rintro (rfl|rfl|rfl|rfl|rfl|rfl|rfl|rfl|rfl|rfl|rfl|rfl|rfl|rfl|rfl|rfl) <;> simp
  · simp only [IsBracket, IsLeftBracket, IsRightBracket, Bool.or_eq_true,
      beq_iff_eq, List.mem_cons, List.not_mem_nil, or_false, or_assoc]
    constructor
    · rintro (rfl|rfl|rfl|rfl|rfl|rfl) <;> simp
    · rintro (rfl|rfl|rfl|rfl|rfl|rfl) <;> simp

/-- C10: `Lexer::operator[]` is total — it returns the token at the index
when the index is less than the number of tokens, and a freshly
constructed EOF token `LexerToken(kEOF, 0, 0, "")` for every
out-of-range index. -/
theorem lexerAt_total (tokens : List LexerToken) (index : Nat) :
    (∀ h : index < tokens.length, lexerAt tokens index = tokens.get ⟨index, h⟩) ∧
    (tokens.length ≤ index →
      lexerAt tokens index = LexerToken.mk TokenType.kEOF 0 0 "") := by
  constructor
  · intro h
    simp [lexerAt, h]
  · intro h
    simp [lexerAt, Nat.not_lt.mpr h]

/-- Witness for C10 at a concrete token list: index 0 is in range and
returns the stored token, index 5 is out of range and returns the EOF
token. -/
theorem lexerAt_total_witness :
    lexerAt [LexerToken.mk TokenType.kSymbol 1 0 "a"] 0 =
      LexerToken.mk TokenType.kSymbol 1 0 "a" ∧
    lexerAt [LexerToken.mk TokenType.kSymbol 1 0 "a"] 5 =
      LexerToken.mk TokenType.kEOF 0 0 "" :=
  ⟨(lexerAt_total [LexerToken.mk TokenType.kSymbol 1 0 "a"] 0).1 (by decide),
   (lexerAt_total [LexerToken.mk TokenType.kSymbol 1 0 "a"] 5).2 (by decide)⟩

/-! ## Tokenizer run lemmas (C4, C5, C7) -/

theorem scanStep_emit_props {opts : LexerOptions} {cs : List Char} {line col : Nat}
    {t : LexerToken} {rest : List Char} {l2 c2 : Nat}
    (h : scanStep opts cs line col = ScanOut.emit t rest l2 c2) :
    t.type ≠ TokenType.kError ∧
    (t.type = TokenType.kWhite → opts.include_whitespace = true) ∧
    (t.type = TokenType.kComment → opts.include_comments = true) := by
  rcases cs with _ | ⟨c, cs1⟩
  · simp [scanStep] at h
  · unfold scanStep at h
    repeat' split at h
    all_goals cases h
    all_goals refine ⟨?_, ?_, ?_⟩ <;> intro hh <;> simp_all

theorem scanStep_fail_type {opts : LexerOptions} {cs : List Char} {line col : Nat}
    {t : LexerToken}
    (h : scanStep opts cs line col = ScanOut.fail t) :
    t.type = TokenType.kError := by
  rcases cs with _ | ⟨c, cs1⟩
  · simp [scanStep] at h
  · unfold scanStep at h
    repeat' split at h
    all_goals cases h
    all_goals rfl

theorem analyzeLoop_dropLast_ok (opts : LexerOptions) :
    ∀ (fuel : Nat) (cs : List Char) (line col : Nat),
      ((analyzeLoop opts fuel cs line col).dropLast.all fun t => !t.IsErrorTok) = true := by
  intro fuel
  induction fuel with
  | zero => intro cs line col; rfl
  | succ fu ih =>
    intro cs line col
    rcases cs with _ | ⟨c, cs1⟩
    · rfl
    · show ((match scanStep opts (c :: cs1) line col with
        | ScanOut.emit t rest l2 c2 => t :: analyzeLoop opts fu rest l2 c2
        | ScanOut.drop rest l2 c2 => analyzeLoop opts fu rest l2 c2
        | ScanOut.fail t => [t]).dropLast.all fun t => !t.IsErrorTok) = true
      cases hs : scanStep opts (c :: cs1) line col with
      | emit t rest l2 c2 =>
        have hnt := (scanStep_emit_props hs).1
        have hrec := ih rest l2 c2
        show ((t :: analyzeLoop opts fu rest l2 c2).dropLast.all fun t => !t.IsErrorTok) = true
        cases hl : analyzeLoop opts fu rest l2 c2 with
        | nil => rfl
        | cons x xs =>
          rw [hl] at hrec
          rw [List.dropLast_cons_of_ne_nil (List.cons_ne_nil x xs), List.all_cons]
          refine (Bool.and_eq_true _ _).mpr ⟨?_, hrec⟩
          simp [LexerToken.IsErrorTok, hnt]
      | drop rest l2 c2 => exact ih rest l2 c2
      | fail t => rfl

theorem analyzeLoop_no_white_comment (opts : LexerOptions)
    (hw : opts.include_whitespace = false) (hc : opts.include_comments = false) :
    ∀ (fuel : Nat) (cs : List Char) (line col : Nat),
      ((analyzeLoop opts fuel cs line col).all fun t =>
        !(t.type == TokenType.kWhite) && !(t.type == TokenType.kComment)) = true := by
  intro fuel
  induction fuel with
  | zero => intro cs line col; rfl
  | succ fu ih =>
    intro cs line col
    rcases cs with _ | ⟨c, cs1⟩
    · rfl
    · show ((match scanStep opts (c :: cs1) line col with
        | ScanOut.emit t rest l2 c2 => t :: analyzeLoop opts fu rest l2 c2
        | ScanOut.drop rest l2 c2 => analyzeLoop opts fu rest l2 c2
        | ScanOut.fail t => [t]).all fun t =>
          !(t.type == TokenType.kWhite) && !(t.type == TokenType.kComment)) = true
      cases hs : scanStep opts (c :: cs1) line col with
      | emit t rest l2 c2 =>
        have hp := scanStep_emit_props hs
        simp only [List.all_cons]
        refine (Bool.and_eq_true _ _).mpr ⟨?_, ih rest l2 c2⟩
        have h1 : t.type ≠ TokenType.kWhite := fun he => by
          rw [hw] at hp; exact absurd (hp.2.1 he) (by decide)
        have h2 : t.type ≠ TokenType.kComment := fun he => by
          rw [hc] at hp; exact absurd (hp.2.2 he) (by decide)
        simp [h1, h2]
      | drop rest l2 c2 => exact ih rest l2 c2
      | fail t =>
        have := scanStep_fail_type hs
        simp [List.all_cons, this]

/-- C4: on malformed input the tokenizer emits a single Error token
carrying the line and column of the failure and halts: in every token
sequence the tokens before the last are never Error tokens (so at most
one Error token is produced, always in final position), and on concrete
malformed inputs — an unterminated string, an unterminated comment, an
invalid numeric literal — exactly one Error token is emitted with the
failure position and no tokens after it.  The scanner is a total
function, so no exception is involved; callers inspect the token kind. -/
theorem lexer_error_token_halts :
    (∀ (opts : LexerOptions) (text : String),
      ((analyze opts text).dropLast.all fun t => !t.IsErrorTok) = true) ∧
    analyze defaultLexerOptions "'abc" =
      [LexerToken.mk TokenType.kError 1 0 "unterminated string"] ∧
    analyze { defaultLexerOptions with comment_mode := true } "(a[bc" =
      [LexerToken.mk TokenType.kBracket 1 0 "(",
       LexerToken.mk TokenType.kSymbol 1 1 "a",
       LexerToken.mk TokenType.kError 1 2 "unterminated comment"] ∧
    analyze defaultLexerOptions "ab\n 1e+" =
      [LexerToken.mk TokenType.kSymbol 1 0 "ab",
       LexerToken.mk TokenType.kError 2 1 "invalid number"] :=
  ⟨fun opts text => analyzeLoop_dropLast_ok opts text.data.length text.data 1 0,
   by decide, by decide, by decide⟩

/-- C7: with the default flags (include_whitespace = false and
include_comments = false) the token sequence contains no Whitespace and
no Comment token for any input (with or without Newick comment mode);
enabling the corresponding flag before the analysis includes those
tokens in the output sequence. -/
theorem default_excludes_whitespace_comments :
    (∀ text : String, ((analyze defaultLexerOptions text).all fun t =>
        !(t.type == TokenType.kWhite) && !(t.type == TokenType.kComment)) = true) ∧
    (∀ text : String,
      ((analyze { defaultLexerOptions with comment_mode := true } text).all fun t =>
        !(t.type == TokenType.kWhite) && !(t.type == TokenType.kComment)) = true) ∧
    analyze { defaultLexerOptions with include_whitespace := true } " a" =
      [LexerToken.mk TokenType.kWhite 1 0 " ",
       LexerToken.mk TokenType.kSymbol 1 1 "a"] ∧
    analyze { defaultLexerOptions with comment_mode := true, include_comments := true }
        "[c]" = [LexerToken.mk TokenType.kComment 1 0 "c"] :=
  ⟨fun text => analyzeLoop_no_white_comment _ rfl rfl text.data.length text.data 1 0,
   fun text => analyzeLoop_no_white_comment _ rfl rfl text.data.length text.data 1 0,
   by decide, by decide⟩

theorem sign_not_letter {c : Char} (h : IsSign c = true) : IsLetter c = false := by
  rcases IsSign_iff.mp h with rfl | rfl <;> decide

theorem sign_not_digit {c : Char} (h : IsSign c = true) : IsDigit c = false := by
  rcases IsSign_iff.mp h with rfl | rfl <;> decide

theorem sign_not_quote {c : Char} (h : IsSign c = true) : IsQuotemark c = false := by
  rcases IsSign_iff.mp h with rfl | rfl <;> decide

theorem sign_is_operator {c : Char} (h : IsSign c = true) : IsOperator c = true := by
  rcases IsSign_iff.mp h with rfl | rfl <;> decide

/-- C5: with `glue_sign_to_number` enabled — the lexer.hh default — a
leading `+` or `-` immediately followed by a digit is merged into the
Number token; with the option disabled the same input yields a separate
Operator token for the sign followed by the Number token of the digit. -/
theorem glue_sign_to_number_merges (c d : Char)
    (h1 : IsSign c = true) (h2 : IsDigit d = true) :
    analyze defaultLexerOptions (String.mk [c, d]) =
      [LexerToken.mk TokenType.kNumber 1 0 (String.mk [c, d])] ∧
    analyze { defaultLexerOptions with glue_sign_to_number := false } (String.mk [c, d]) =
      [LexerToken.mk TokenType.kOperator 1 0 (String.mk [c]),
       LexerToken.mk TokenType.kNumber 1 1 (String.mk [d])] := by
  have hd1 := digit_not_ws h2
  have hd2 := digit_not_letter h2
  have hd3 := digit_not_sign h2
  have hd4 := digit_not_quote h2
  have hs1 := sign_not_ws h1
  have hs2 := sign_not_letter h1
  have hs3 := sign_not_digit h1
  have hs4 := sign_not_quote h1
  have hs5 := sign_is_operator h1
  constructor <;>
    simp [analyze, analyzeLoop, scanStep, scanNumber, scanFrac, scanExp,
      takeDigits, splitSign, defaultLexerOptions, h1, h2, hd1, hd2, hd3, hd4,
      hs1, hs2, hs3, hs4, hs5]

/-- Witness for C5 at the concrete input "-5". -/
theorem glue_sign_to_number_merges_witness :
    analyze defaultLexerOptions (String.mk ['-', '5']) =
      [LexerToken.mk TokenType.kNumber 1 0 (String.mk ['-', '5'])] ∧
    analyze { defaultLexerOptions with glue_sign_to_number := false }
        (String.mk ['-', '5']) =
      [LexerToken.mk TokenType.kOperator 1 0 (String.mk ['-']),
       LexerToken.mk TokenType.kNumber 1 1 (String.mk ['5'])] :=
  glue_sign_to_number_merges '-' '5' (by decide) (by decide)

/-! ## C8: bracket validation -/

theorem closingOf_not_left (o : Char) : IsLeftBracket (closingOf o) = false := by
  unfold closingOf
  split_ifs <;> decide

theorem bracketWalk_iff_matches (cs : List Char) :
    ∀ stack, bracketWalk stack cs = true ↔ Matches stack cs := by
  induction cs with
  | nil =>
    intro stack
    constructor
    · intro h
      rcases stack with _ | ⟨o, st⟩
      · exact Matches.mnil
      · simp [bracketWalk] at h
    · intro h
      cases h
      rfl
  | cons c cs ih =>
    intro stack
    by_cases hc : IsLeftBracket c = true
    · rw [show bracketWalk stack (c :: cs) = bracketWalk (c :: stack) cs by
        simp [bracketWalk, hc]]
      rw [ih (c :: stack)]
      constructor
      · intro h
        exact Matches.mopen c hc h
      · intro h
        cases h with
        | mopen _ _ hm => exact hm
        | mclose o _ =>
          exact absurd hc (by simp [closingOf_not_left o])
    · rcases stack with _ | ⟨o, st⟩
      · constructor
        · intro h
          simp [bracketWalk, hc] at h
        · intro h
          cases h with
          | mopen _ hl _ => exact absurd hl hc
      · rw [show bracketWalk (o :: st) (c :: cs) =
            ((closingOf o == c) && bracketWalk st cs) by simp [bracketWalk, hc]]
        by_cases he : closingOf o = c
        · subst he
          simp only [beq_self_eq_true, Bool.true_and]
          rw [ih st]
          constructor
          · intro h
            exact Matches.mclose o h
          · intro h
            cases h with
            | mopen _ hl _ => exact absurd hl hc
            | mclose _ hm => exact hm
        · constructor
          · intro h
            simp [beq_iff_eq, he] at h
          · intro h
            cases h with
            | mopen _ hl _ => exact absurd hl hc
            | mclose _ _ => exact absurd rfl he

theorem balanced_matches_append {a : List Char} (hb : Balanced a) :
    ∀ stack cs, Matches stack cs → Matches stack (a ++ cs) := by
  induction hb with
  | nil => intro stack cs h; exact h
  | node c hc hbi hbr ihi ihr =>
    intro stack cs h
    rename_i inner rest
    have h1 : Matches stack (rest ++ cs) := ihr stack cs h
    have h2 : Matches (c :: stack) (closingOf c :: (rest ++ cs)) := Matches.mclose c h1
    have h3 : Matches (c :: stack) (inner ++ closingOf c :: (rest ++ cs)) :=
      ihi _ _ h2
    have h4 := Matches.mopen c hc h3
    simpa using h4

theorem closedFrom_push {c : Char} {st : List Char} {cs : List Char}
    (hc : IsLeftBracket c = true) (h : ClosedFrom (c :: st) cs) :
    ClosedFrom st (c :: cs) := by
  obtain ⟨a, b, rfl, hba, hcf⟩ := h
  rcases st with _ | ⟨o, st2⟩
  · exact Balanced.node c hc hba hcf
  · obtain ⟨a2, b2, rfl, hba2, hcf2⟩ := hcf
    refine ⟨c :: a ++ closingOf c :: a2, b2, ?_, ?_, hcf2⟩
    · simp
    · exact Balanced.node c hc hba hba2

theorem matches_closedFrom {stack cs : List Char} (h : Matches stack cs) :
    ClosedFrom stack cs := by
  induction h with
  | mnil => exact Balanced.nil
  | mopen c hc _ ih => exact closedFrom_push hc ih
  | mclose c _ ih => exact ⟨[], _, rfl, Balanced.nil, ih⟩

theorem matches_iff_balanced (cs : List Char) : Matches [] cs ↔ Balanced cs := by
  constructor
  · intro h
    exact matches_closedFrom h
  · intro h
    have := balanced_matches_append h [] [] Matches.mnil
    simpa using this

/-- C8: `ValidateBrackets` is a separate pass over an arbitrary token
sequence — whatever the other tokens are (no Newick semantic validity is
assumed), it returns false exactly when the sequence of Bracket tokens is
not a balanced, type-matched bracket word (so unbalanced brackets, or a
bracket closed by a bracket of the wrong type such as `(` closed by `]`,
are rejected, and nothing else is). -/
theorem validateBrackets_separate_pass (ts : List LexerToken) :
    validateBrackets ts = false ↔ ¬ Balanced (bracketChars ts) := by
  rw [← matches_iff_balanced, ← bracketWalk_iff_matches]
  unfold validateBrackets
  cases h : bracketWalk [] (bracketChars ts) <;> simp

/-! ## C9: the serialization options are process-wide static state -/

/-- Counterexample to C9 as stated: the four formatting toggles are
static data members of `NewickProcessor`, not arguments of the
serialization call.  Two `ToString` calls with the same tree — and no
option argument, since the call takes none — produce different output
when the ambient static flags were reassigned in between, so the output
does not depend only on the call's arguments. -/
theorem newick_flags_static_counterexample :
    runSteps
      [ProcStep.setFlags allFlags,
       ProcStep.toNewickString (NTree.node ['C'] none [] []
         (NForest.cons (NTree.node ['A'] none [] [] NForest.nil)
           (NForest.cons (NTree.node ['B'] none [] [] NForest.nil) NForest.nil))),
       ProcStep.setFlags { allFlags with print_names := false },
       ProcStep.toNewickString (NTree.node ['C'] none [] []
         (NForest.cons (NTree.node ['A'] none [] [] NForest.nil)
           (NForest.cons (NTree.node ['B'] none [] [] NForest.nil) NForest.nil)))]
      allFlags = ["(A,B)C;\n", "(,);\n"] ∧
    ("(A,B)C;\n" : String) ≠ "(,);\n" :=
  ⟨rfl, by decide⟩

/-- C9 amended: the formatting toggles are process-wide static members of
`NewickProcessor` read by the serialization call, which takes no option
arguments; a serialization call never mutates the flags, so its output is
determined by the tree and the static flag state at the call, and in
particular is unchanged by any other serializations performed before it —
only an intervening flag assignment can change it. -/
theorem serialize_reads_static_flags
    (steps : List ProcStep) (f0 : NewickProcessorFlags) (t : NTree)
    (h : ∀ s ∈ steps, ∃ u, s = ProcStep.toNewickString u) :
    runSteps (steps ++ [ProcStep.toNewickString t]) f0 =
      runSteps steps f0 ++ [serializeNewick f0 t] := by
  induction steps with
  | nil => rfl
  | cons s rest ih =>
    obtain ⟨u, rfl⟩ := h s (List.mem_cons_self s rest)
    show serializeNewick f0 u :: runSteps (rest ++ [ProcStep.toNewickString t]) f0 =
      serializeNewick f0 u :: (runSteps rest f0 ++ [serializeNewick f0 t])
    rw [ih (fun x hx => h x (List.mem_cons_of_mem _ hx))]

/-- Witness for the amended C9: a serialization preceded by another
serialization (and no flag assignment) produces the output of the
original flag state. -/
theorem serialize_reads_static_flags_witness :
    runSteps
      [ProcStep.toNewickString (NTree.node ['A'] none [] [] NForest.nil),
       ProcStep.toNewickString (NTree.node ['B'] none [] [] NForest.nil)]
      allFlags =
      runSteps [ProcStep.toNewickString (NTree.node ['A'] none [] [] NForest.nil)]
        allFlags ++ ["B;\n"] :=
  serialize_reads_static_flags
    [ProcStep.toNewickString (NTree.node ['A'] none [] [] NForest.nil)]
    allFlags (NTree.node ['B'] none [] [] NForest.nil)
    (by
      intro s hs
      simp only [List.mem_singleton] at hs
      exact ⟨_, hs⟩)

/-! ## C3: the concrete scenario -/

/-- C3: the input `"(A,B,(C,D)E)F;"` with all print options enabled
parses to the topology with root F having children A, B, E in that ring
order, E having children C and D; serializing it back with the same
options reproduces the (here even textually identical) Newick text with
the trailing semicolon and newline; preorder from F visits
F, A, B, E, C, D and postorder visits A, B, C, D, E, F. -/
theorem concrete_scenario_full_options :
    parseNewick "(A,B,(C,D)E)F;" =
      some (NTree.node ['F'] none [] []
        (NForest.cons (NTree.node ['A'] none [] [] NForest.nil)
          (NForest.cons (NTree.node ['B'] none [] [] NForest.nil)
            (NForest.cons (NTree.node ['E'] none [] []
              (NForest.cons (NTree.node ['C'] none [] [] NForest.nil)
                (NForest.cons (NTree.node ['D'] none [] [] NForest.nil) NForest.nil)))
              NForest.nil)))) ∧
    serializeNewick allFlags
      (NTree.node ['F'] none [] []
        (NForest.cons (NTree.node ['A'] none [] [] NForest.nil)
          (NForest.cons (NTree.node ['B'] none [] [] NForest.nil)
            (NForest.cons (NTree.node ['E'] none [] []
              (NForest.cons (NTree.node ['C'] none [] [] NForest.nil)
                (NForest.cons (NTree.node ['D'] none [] [] NForest.nil) NForest.nil)))
              NForest.nil)))) = "(A,B,(C,D)E)F;\n" ∧
    preorderNames
      (NTree.node ['F'] none [] []
        (NForest.cons (NTree.node ['A'] none [] [] NForest.nil)
          (NForest.cons (NTree.node ['B'] none [] [] NForest.nil)
            (NForest.cons (NTree.node ['E'] none [] []
              (NForest.cons (NTree.node ['C'] none [] [] NForest.nil)
                (NForest.cons (NTree.node ['D'] none [] [] NForest.nil) NForest.nil)))
              NForest.nil)))) = ["F", "A", "B", "E", "C", "D"] ∧
    postorderNames
      (NTree.node ['F'] none [] []
        (NForest.cons (NTree.node ['A'] none [] [] NForest.nil)
          (NForest.cons (NTree.node ['B'] none [] [] NForest.nil)
            (NForest.cons (NTree.node ['E'] none [] []
              (NForest.cons (NTree.node ['C'] none [] [] NForest.nil)
                (NForest.cons (NTree.node ['D'] none [] [] NForest.nil) NForest.nil)))
              NForest.nil)))) = ["A", "B", "C", "D", "E", "F"] :=
  ⟨rfl, rfl, rfl, rfl⟩

/-! ## C2: the outer-pairing invariant of the topology store -/

theorem blensF_length : ∀ f : NForest, (blensF f).length = lengthF f
  | NForest.nil => rfl
  | NForest.cons (NTree.node _ _ _ _ _) rest => by
    simp [blensF, lengthF, blensF_length rest]

theorem mkPairLinks_even {nIdx base eBase k : Nat} {inc : Option Nat} {j : Nat}
    (hj : j < k) :
    (mkPairLinks nIdx base eBase k inc)[2 * j]? =
      some { node := nIdx, edge := eBase + j, outer := base + 2 * j + 1,
             next_ := if j + 1 < k then base + 2 * j + 2
                      else match inc with | some i => i | none => base } := by
  unfold mkPairLinks
  rw [List.getElem?_map, List.getElem?_range (by omega : 2 * j < 2 * k)]
  have h1 : 2 * j % 2 = 0 := by omega
  have h2 : 2 * j / 2 = j := by omega
  simp [h1, h2]

theorem mkPairLinks_odd {nIdx base eBase k : Nat} {inc : Option Nat} {j : Nat}
    (hj : j < k) :
    (mkPairLinks nIdx base eBase k inc)[2 * j + 1]? =
      some { node := 0, edge := eBase + j, outer := base + 2 * j, next_ := 0 } := by
  unfold mkPairLinks
  rw [List.getElem?_map, List.getElem?_range (by omega : 2 * j + 1 < 2 * k)]
  have h1 : (2 * j + 1) % 2 ≠ 0 := by omega
  have h2 : (2 * j + 1) / 2 = j := by omega
  simp [h1, h2]

theorem pairedInv_fixLink (i n x : Nat) (st : Topology) (h : pairedInv st) :
    pairedInv (fixLink i n x st) := by
  unfold fixLink
  cases hg : st.links[i]? with
  | none => exact h
  | some l =>
    intro e he
    obtain ⟨lp, ls, h1, h2, h3, h4⟩ := h e he
    have key : ∀ (j : Nat) (lj : TreeLinkRec), st.links[j]? = some lj →
        ∃ lj' : TreeLinkRec,
          (st.links.set i { l with node := n, next_ := x })[j]? = some lj' ∧
          lj'.outer = lj.outer := by
      intro j lj hj
      by_cases hij : i = j
      · subst hij
        rw [hg] at hj
        cases hj
        obtain ⟨hlen, _⟩ := List.getElem?_eq_some.mp hg
        exact ⟨_, List.getElem?_set_self hlen, rfl⟩
      · exact ⟨lj, by rw [List.getElem?_set_ne hij]; exact hj, rfl⟩
    obtain ⟨lp', hp', hpo⟩ := key _ _ h1
    obtain ⟨ls', hs', hso⟩ := key _ _ h2
    exact ⟨lp', ls', hp', hs', by rw [hpo, h3], by rw [hso, h4]⟩

theorem pairedInv_extend (st : Topology) (nm : List Char) (ch : NForest)
    (inc : Option Nat) (h : pairedInv st) :
    pairedInv
      { nodes := st.nodes ++
          [{ link := (match inc with | some i => i | none => st.links.length), name := nm }],
        edges := st.edges ++
          (List.enum (blensF ch)).map (fun p =>
            { link_p := st.links.length + 2 * p.1,
              link_s := st.links.length + 2 * p.1 + 1,
              branch_length := p.2 }),
        links := st.links ++
          mkPairLinks st.nodes.length st.links.length st.edges.length (lengthF ch) inc } := by
  intro e he
  rcases List.mem_append.mp he with hold | hnew
  · obtain ⟨lp, ls, h1, h2, h3, h4⟩ := h e hold
    obtain ⟨hp, _⟩ := List.getElem?_eq_some.mp h1
    obtain ⟨hs, _⟩ := List.getElem?_eq_some.mp h2
    exact ⟨lp, ls,
      by show (st.links ++ _)[e.link_p]? = _
         rw [List.getElem?_append_left hp]; exact h1,
      by show (st.links ++ _)[e.link_s]? = _
         rw [List.getElem?_append_left hs]; exact h2, h3, h4⟩
  · obtain ⟨p, hp, rfl⟩ := List.mem_map.mp hnew
    have hjk : p.1 < lengthF ch := by
      have hmem := List.mem_enum_iff_getElem?.mp hp
      have hlt := (List.getElem?_eq_some.mp hmem).1
      rwa [blensF_length] at hlt
    have e1 : (st.links ++
        mkPairLinks st.nodes.length st.links.length st.edges.length (lengthF ch) inc)[
          st.links.length + 2 * p.1]? =
        some { node := st.nodes.length, edge := st.edges.length + p.1,
               outer := st.links.length + 2 * p.1 + 1,
               next_ := if p.1 + 1 < lengthF ch then st.links.length + 2 * p.1 + 2
                        else match inc with | some i => i | none => st.links.length } := by
      rw [List.getElem?_append_right (by omega)]
      have harith : st.links.length + 2 * p.1 - st.links.length = 2 * p.1 := by omega
      rw [harith, mkPairLinks_even hjk]
      cases inc <;> rfl
    have e2 : (st.links ++
        mkPairLinks st.nodes.length st.links.length st.edges.length (lengthF ch) inc)[
          st.links.length + 2 * p.1 + 1]? =
        some { node := 0, edge := st.edges.length + p.1,
               outer := st.links.length + 2 * p.1, next_ := 0 } := by
      rw [List.getElem?_append_right (by omega)]
      have harith : st.links.length + 2 * p.1 + 1 - st.links.length = 2 * p.1 + 1 := by omega
      rw [harith, mkPairLinks_odd hjk]
    exact ⟨_, _, e1, e2, rfl, rfl⟩

mutual
theorem buildS_paired : ∀ (t : NTree) (inc : Option Nat) (st : Topology),
    pairedInv st → pairedInv (buildS t inc st)
  | NTree.node nm bl cms tgs ch, inc, st, h => by
    simp only [buildS]
    have h1 := pairedInv_extend st nm ch inc h
    cases inc with
    | none => exact buildF_paired ch 0 st.links.length _ h1
    | some i =>
      exact buildF_paired ch 0 st.links.length _ (pairedInv_fixLink _ _ _ _ h1)
theorem buildF_paired : ∀ (f : NForest) (j base : Nat) (st : Topology),
    pairedInv st → pairedInv (buildF f j base st)
  | NForest.nil, _, _, _, h => h
  | NForest.cons t rest, j, base, st, h =>
    buildF_paired rest (j + 1) base _ (buildS_paired t (some (base + 2 * j + 1)) st h)
end

/-- C2: in every topology constructed from a parsed Newick tree, every
Edge's two links are mutually paired — the outer link of the edge's
primary link is the edge's secondary link and vice versa
(`TreeEdge::primary_link` / `secondary_link` of tree_edge.tpp).  The
invariant is established at edge allocation and preserved by every
subsequent build step, since the ring fix-ups never touch a link's
`outer` or `edge` references; the source has no other tree-editing
operations (the spec places them out of scope beyond construction). -/
theorem edge_links_mutually_paired (t : NTree) : pairedInv (buildTopology t) :=
  buildS_paired t none ⟨[], [], []⟩ (fun e he => absurd he (List.not_mem_nil e))


end Genesis
namespace Genesis

theorem skipWs_cons {c : Char} (cs : List Char) (h : IsWhitespace c = false) :
    skipWs (c :: cs) = c :: cs := by
  simp [skipWs, List.dropWhile_cons, h]

theorem takeDigits_of {d rest : List Char}
    (hd : ∀ c ∈ d, IsDigit c = true)
    (hr : ∀ r, rest.head? = some r → IsDigit r = false) :
    takeDigits (d ++ rest) = (d, rest) := by
  induction d with
  | nil =>
    cases rest with
    | nil => rfl
    | cons r rs => simp [takeDigits, hr r rfl]
  | cons c cs ih =>
    have hc := hd c (List.mem_cons_self c cs)
    have ih2 := ih fun x hx => hd x (List.mem_cons_of_mem c hx)
    simp [takeDigits, hc, ih2]

theorem takeSyms_of {a rest : List Char}
    (ha : ∀ c ∈ a, IsAlphanum c = true)
    (hr : ∀ r, rest.head? = some r → IsAlphanum r = false) :
    takeSyms (a ++ rest) = (a, rest) := by
  induction a with
  | nil =>
    cases rest with
    | nil => rfl
    | cons r rs => simp [takeSyms, hr r rfl]
  | cons c cs ih =>
    have hc := ha c (List.mem_cons_self c cs)
    have ih2 := ih fun x hx => ha x (List.mem_cons_of_mem c hx)
    simp [takeSyms, hc, ih2]

theorem takeUntil_of {d : Char} {a rest : List Char} (h : d ∉ a) :
    takeUntil d (a ++ d :: rest) = some (a, rest) := by
  induction a with
  | nil => simp [takeUntil]
  | cons c cs ih =>
    have hcd : (c == d) = false := by
      simp only [beq_eq_false_iff_ne, ne_eq]
      intro he
      exact h (he ▸ List.mem_cons_self c cs)
    simp [takeUntil, hcd, ih fun hm => h (List.mem_cons_of_mem c hm)]

theorem escape_roundtrip (nm rest : List Char) :
    takeQuoted '\'' (escapeChars nm ++ '\'' :: rest) = some (nm, rest) := by
  induction nm with
  | nil => simp [escapeChars, takeQuoted]
  | cons c cs ih =>
    show takeQuoted '\'' ((escSeq c ++ escapeChars cs) ++ '\'' :: rest) = _
    by_cases h1 : c = '\\'
    · subst h1
      simp [escSeq, takeQuoted, takeQuotedEsc, escChar, ih]
    · by_cases h2 : c = '\''
      · subst h2
        simp [escSeq, takeQuoted, takeQuotedEsc, escChar, ih]
      · by_cases h3 : c = '\n'
        · subst h3
          simp [escSeq, takeQuoted, takeQuotedEsc, escChar, ih]
        · by_cases h4 : c = '\t'
          · subst h4
            simp [escSeq, takeQuoted, takeQuotedEsc, escChar, ih]
          · by_cases h5 : c = '\r'
            · subst h5
              simp [escSeq, takeQuoted, takeQuotedEsc, escChar, ih]
            · have e1 : (c == '\\') = false := by simp [h1]
              have e2 : (c == '\'') = false := by simp [h2]
              have e3 : (c == '\n') = false := by simp [h3]
              have e4 : (c == '\t') = false := by simp [h4]
              have e5 : (c == '\r') = false := by simp [h5]
              simp [escSeq, e1, e2, e3, e4, e5, takeQuoted, takeQuotedEsc, ih]

end Genesis
namespace Genesis

theorem scanExp_of {x rest : List Char} (acc : List Char) (hx : ExpOpt x) (hr : DelimOk rest) :
    scanExp acc (x ++ rest) = some (acc ++ x, rest) := by
  rcases hx with rfl | ⟨e, s, d, he, hs, hd, rfl⟩
  · simp only [List.nil_append, List.append_nil]
    cases rest with
    | nil => rfl
    | cons r rs =>
      obtain ⟨h1, h2, h3, h4⟩ := hr r rfl
      have he' : (r == 'e' || r == 'E') = false := by simp [h3, h4]
      simp [scanExp, he']
  · have hee : (e == 'e' || e == 'E') = true := by rcases he with rfl | rfl <;> simp
    obtain ⟨hdne, hdall⟩ := hd
    obtain ⟨d0, ds, rfl⟩ := List.exists_cons_of_ne_nil hdne
    have htd : takeDigits (d0 :: (ds ++ rest)) = (d0 :: ds, rest) := by
      simpa using takeDigits_of hdall (fun r hr' => (hr r hr').1)
    rcases hs with rfl | ⟨c0, hc0, rfl⟩
    · have hd0 : IsDigit d0 = true := hdall d0 (List.mem_cons_self d0 ds)
      have hns : IsSign d0 = false := digit_not_sign hd0
      show scanExp acc ((e :: ([] ++ (d0 :: ds))) ++ rest) = _
      simp [scanExp, hee, splitSign, hns, htd]
    · show scanExp acc ((e :: ([c0] ++ (d0 :: ds))) ++ rest) = _
      simp [scanExp, hee, splitSign, hc0, htd]

end Genesis
namespace Genesis

theorem splitSign_sign {c : Char} (t : List Char) (h : IsSign c = true) :
    splitSign (c :: t) = ([c], t) := by
  simp [splitSign, h]

theorem splitSign_not_sign {c : Char} (t : List Char) (h : IsSign c = false) :
    splitSign (c :: t) = ([], c :: t) := by
  simp [splitSign, h]

theorem scanFrac_dot (acc cs3 : List Char) :
    scanFrac acc ('.' :: cs3) =
      (if (takeDigits cs3).1 = [] then none
       else scanExp (acc ++ '.' :: (takeDigits cs3).1) (takeDigits cs3).2) := rfl

theorem scanFrac_not_dot (acc : List Char) {cs : List Char}
    (h : ∀ r, cs.head? = some r → r ≠ '.') :
    scanFrac acc cs = scanExp acc cs := by
  cases cs with
  | nil => rfl
  | cons r rs =>
    have hr := h r rfl
    unfold scanFrac
    split
    · rename_i heq
      rw [List.cons.injEq] at heq
      exact absurd heq.1 hr
    · rfl

end Genesis
namespace Genesis

theorem scanTail_of (sgn d : List Char) {f x rest : List Char}
    (hf : FracOpt f) (hx : ExpOpt x) (hr : DelimOk rest) :
    scanFrac (sgn ++ d) (f ++ (x ++ rest)) = some (sgn ++ d ++ f ++ x, rest) := by
  have hxr : ∀ r, (x ++ rest).head? = some r → IsDigit r = false ∧ r ≠ '.' := by
    rcases hx with rfl | ⟨e, s2, d2, he, hs2, hd2, rfl⟩
    · intro r hr'
      simp only [List.nil_append] at hr'
      exact ⟨(hr r hr').1, (hr r hr').2.1⟩
    · intro r hr'
      rw [List.cons_append, List.head?_cons] at hr'
      injection hr' with hh
      subst hh
      rcases he with rfl | rfl <;> exact ⟨by decide, by decide⟩
  rcases hf with rfl | ⟨fd, ⟨hfdne, hfdall⟩, rfl⟩
  · rw [List.nil_append, scanFrac_not_dot _ (fun r h' => (hxr r h').2),
      scanExp_of _ hx hr]
    simp
  · obtain ⟨f0, fs, rfl⟩ := List.exists_cons_of_ne_nil hfdne
    have htd2 : takeDigits (f0 :: (fs ++ (x ++ rest))) = (f0 :: fs, x ++ rest) := by
      simpa using takeDigits_of hfdall (fun r h' => (hxr r h').1)
    show scanFrac (sgn ++ d) ('.' :: (f0 :: (fs ++ (x ++ rest)))) = _
    rw [scanFrac_dot, htd2]
    show (if (f0 :: fs : List Char) = [] then none
      else scanExp (sgn ++ d ++ '.' :: (f0 :: fs)) (x ++ rest)) = _
    rw [if_neg (List.cons_ne_nil f0 fs), scanExp_of _ hx hr]

end Genesis
namespace Genesis

theorem scanNumber_of {lit rest : List Char} (h : NumberShape lit) (hr : DelimOk rest) :
    scanNumber (lit ++ rest) = some (lit, rest) := by
  obtain ⟨s, d, f, x, hs, ⟨hdne, hdall⟩, hf, hx, rfl⟩ := h
  obtain ⟨d0, ds, rfl⟩ := List.exists_cons_of_ne_nil hdne
  have hd0 : IsDigit d0 = true := hdall d0 (List.mem_cons_self _ _)
  have hfx : ∀ r, (f ++ (x ++ rest)).head? = some r → IsDigit r = false := by
    rcases hf with rfl | ⟨fd, hfd, rfl⟩
    · rcases hx with rfl | ⟨e, s2, d2, he, hs2, hd2, rfl⟩
      · intro r hr'
        simp only [List.nil_append] at hr'
        exact (hr r hr').1
      · intro r hr'
        rw [List.nil_append, List.cons_append, List.head?_cons] at hr'
        injection hr' with hh
        subst hh
        rcases he with rfl | rfl <;> decide
    · intro r hr'
      rw [List.cons_append, List.head?_cons] at hr'
      injection hr' with hh
      subst hh
      decide
  have htd : takeDigits (d0 :: (ds ++ (f ++ (x ++ rest)))) = (d0 :: ds, f ++ (x ++ rest)) := by
    simpa using takeDigits_of hdall hfx
  rcases hs with rfl | ⟨c0, hc0, rfl⟩
  · have hcore := scanTail_of [] (d0 :: ds) hf hx hr
    simp only [List.nil_append] at hcore
    simp only [List.nil_append, List.cons_append, List.append_assoc]
    simp only [scanNumber, splitSign_not_sign _ (digit_not_sign hd0), htd,
      List.cons_ne_nil, if_false, reduceIte]
    simp only [List.cons_append, List.append_assoc] at hcore
    simpa using hcore
  · have hcore2 := scanTail_of [c0] (d0 :: ds) hf hx hr
    simp only [List.cons_append, List.nil_append, List.append_assoc] at hcore2
    simp only [List.cons_append, List.nil_append, List.append_assoc]
    simp only [scanNumber, splitSign_sign _ hc0, List.nil_append, htd,
      List.cons_ne_nil, if_false, reduceIte]
    simpa using hcore2

end Genesis
namespace Genesis

theorem takeDigits_spec : ∀ cs : List Char, ∀ c ∈ (takeDigits cs).1, IsDigit c = true := by
  intro cs
  induction cs with
  | nil => simp [takeDigits]
  | cons c cs ih =>
    by_cases h : IsDigit c = true
    · simp only [takeDigits, h, if_true, reduceIte]
      intro y hy
      rcases List.mem_cons.mp hy with rfl | hy2
      · exact h
      · exact ih y hy2
    · simp [takeDigits, h]

theorem splitSign_spec (cs : List Char) : SignOpt (splitSign cs).1 := by
  cases cs with
  | nil => exact Or.inl rfl
  | cons c cs =>
    by_cases h : IsSign c = true
    · exact Or.inr ⟨c, h, by simp [splitSign, h]⟩
    · simp only [splitSign, h, Bool.false_eq_true, if_false, reduceIte]
      exact Or.inl rfl

theorem takeUntil_not_mem {d : Char} :
    ∀ {cs a b : List Char}, takeUntil d cs = some (a, b) → d ∉ a := by
  intro cs
  induction cs with
  | nil => intro a b h; cases h
  | cons c cs ih =>
    intro a b h
    by_cases hc : (c == d) = true
    · simp only [takeUntil, hc, if_true, reduceIte, Option.some.injEq, Prod.mk.injEq] at h
      rw [← h.1]
      exact List.not_mem_nil d
    · simp only [takeUntil, hc, Bool.false_eq_true, if_false, reduceIte,
        Option.map_eq_some'] at h
      obtain ⟨p, hp, heq⟩ := h
      cases heq
      intro hmem
      rcases List.mem_cons.mp hmem with rfl | hmem2
      · simp at hc
      · exact ih hp hmem2

theorem scanExp_sound {acc cs lit rest : List Char}
    (h : scanExp acc cs = some (lit, rest)) :
    ∃ x, ExpOpt x ∧ lit = acc ++ x := by
  cases cs with
  | nil =>
    simp only [scanExp, Option.some.injEq, Prod.mk.injEq] at h
    exact ⟨[], Or.inl rfl, by simp [← h.1]⟩
  | cons c cs1 =>
    by_cases he : (c == 'e' || c == 'E') = true
    · simp only [scanExp, he, if_true, reduceIte] at h
      split at h
      · cases h
      · rename_i hne
        simp only [Option.some.injEq, Prod.mk.injEq] at h
        refine ⟨c :: ((splitSign cs1).1 ++ (takeDigits (splitSign cs1).2).1),
          Or.inr ⟨c, (splitSign cs1).1, (takeDigits (splitSign cs1).2).1, ?_,
            splitSign_spec cs1, ⟨hne, takeDigits_spec _⟩, rfl⟩, ?_⟩
        · rcases Bool.or_eq_true_iff.mp he with h1 | h1
          · exact Or.inl (by simpa using h1)
          · exact Or.inr (by simpa using h1)
        · rw [← h.1]
          simp
    · simp only [scanExp, he, Bool.false_eq_true, if_false, reduceIte,
        Option.some.injEq, Prod.mk.injEq] at h
      exact ⟨[], Or.inl rfl, by simp [← h.1]⟩

theorem scanFrac_sound {acc cs lit rest : List Char}
    (h : scanFrac acc cs = some (lit, rest)) :
    ∃ f x, FracOpt f ∧ ExpOpt x ∧ lit = acc ++ f ++ x := by
  unfold scanFrac at h
  dsimp only at h
  split at h
  · rename_i cs3
    by_cases hq : (takeDigits cs3).1 = []
    · rw [if_pos hq] at h
      cases h
    · rw [if_neg hq] at h
      obtain ⟨x, hx, hlit⟩ := scanExp_sound h
      refine ⟨'.' :: (takeDigits cs3).1, x,
        Or.inr ⟨(takeDigits cs3).1, ⟨hq, takeDigits_spec _⟩, rfl⟩, hx, ?_⟩
      rw [hlit]
  · obtain ⟨x, hx, hlit⟩ := scanExp_sound h
    exact ⟨[], x, Or.inl rfl, hx, by simp [hlit]⟩

theorem scanNumber_sound {cs lit rest : List Char}
    (h : scanNumber cs = some (lit, rest)) : NumberShape lit := by
  unfold scanNumber at h
  dsimp only at h
  by_cases hne : (takeDigits (splitSign cs).2).1 = []
  · rw [if_pos hne] at h
    cases h
  · rw [if_neg hne] at h
    obtain ⟨f, x, hf, hx, hlit⟩ := scanFrac_sound h
    exact ⟨(splitSign cs).1, (takeDigits (splitSign cs).2).1, f, x,
      splitSign_spec cs, ⟨hne, takeDigits_spec _⟩, hf, hx, by simp [hlit]⟩

end Genesis
namespace Genesis

theorem parseBlen_sound {cs : List Char} {bl : Option (List Char)} {rest : List Char}
    (h : parseBlen cs = some (bl, rest)) :
    ∀ lit, bl = some lit → NumberShape lit := by
  unfold parseBlen at h
  dsimp only at h
  split at h
  · rw [Option.map_eq_some'] at h
    obtain ⟨p, hp, heq⟩ := h
    cases heq
    intro lit hlit
    cases hlit
    exact scanNumber_sound ((Prod.mk.eta (p := p)) ▸ hp)
  · cases h
    intro lit hlit
    cases hlit

theorem parseDecor_sound : ∀ (fuel : Nat) (cs : List Char)
    (cms tgs : List (List Char)) (rest : List Char),
    parseDecor fuel cs = some ((cms, tgs), rest) →
    (∀ c ∈ cms, ']' ∉ c) ∧ (∀ g ∈ tgs, '\x7d' ∉ g) := by
  intro fuel
  induction fuel with
  | zero => intro cs cms tgs rest h; cases h
  | succ fu ih =>
    intro cs cms tgs rest h
    unfold parseDecor at h
    dsimp only at h
    split at h
    · rw [Option.bind_eq_some] at h
      obtain ⟨q, hq, h2⟩ := h
      rw [Option.map_eq_some'] at h2
      obtain ⟨r, hr, heq⟩ := h2
      cases heq
      have hrec := ih _ _ _ _ ((Prod.mk.eta (p := r)).symm ▸ hr)
      constructor
      · intro c hc
        rcases List.mem_cons.mp hc with rfl | hc2
        · exact takeUntil_not_mem ((Prod.mk.eta (p := q)) ▸ hq)
        · exact hrec.1 c hc2
      · exact hrec.2
    · rw [Option.bind_eq_some] at h
      obtain ⟨q, hq, h2⟩ := h
      rw [Option.map_eq_some'] at h2
      obtain ⟨r, hr, heq⟩ := h2
      cases heq
      have hrec := ih _ _ _ _ ((Prod.mk.eta (p := r)).symm ▸ hr)
      constructor
      · exact hrec.1
      · intro g hg
        rcases List.mem_cons.mp hg with rfl | hg2
        · exact takeUntil_not_mem ((Prod.mk.eta (p := q)) ▸ hq)
        · exact hrec.2 g hg2
    · cases h
      constructor
      · intro c hc
        cases hc
      · intro g hg
        cases hg

theorem parse_sound : ∀ fuel : Nat,
    (∀ cs t rest, parseSubtree fuel cs = some (t, rest) → WFt t) ∧
    (∀ cs f rest, parseForest fuel cs = some (f, rest) → WFf f) := by
  intro fuel
  induction fuel with
  | zero =>
    constructor
    · intro cs t rest h; cases h
    · intro cs f rest h; cases h
  | succ fu ih =>
    obtain ⟨ihS, ihF⟩ := ih
    constructor
    · intro cs t rest h
      unfold parseSubtree at h
      dsimp only at h
      split at h
      · rw [Option.bind_eq_some] at h
        obtain ⟨pf, hpf, h2⟩ := h
        rw [Option.bind_eq_some] at h2
        obtain ⟨pn, hpn, h3⟩ := h2
        rw [Option.bind_eq_some] at h3
        obtain ⟨pb, hpb, h4⟩ := h3
        rw [Option.map_eq_some'] at h4
        obtain ⟨pd, hpd, heq⟩ := h4
        cases heq
        have hdec := parseDecor_sound fu _ _ _ _
          ((Prod.mk.eta (p := pd)).symm ▸ hpd)
        rw [WFt]
        exact ⟨parseBlen_sound ((Prod.mk.eta (p := pb)) ▸ hpb), hdec.1, hdec.2,
          ihF _ _ _ ((Prod.mk.eta (p := pf)) ▸ hpf)⟩
      · rw [Option.bind_eq_some] at h
        obtain ⟨pn, hpn, h3⟩ := h
        rw [Option.bind_eq_some] at h3
        obtain ⟨pb, hpb, h4⟩ := h3
        rw [Option.map_eq_some'] at h4
        obtain ⟨pd, hpd, heq⟩ := h4
        cases heq
        have hdec := parseDecor_sound fu _ _ _ _
          ((Prod.mk.eta (p := pd)).symm ▸ hpd)
        rw [WFt]
        exact ⟨parseBlen_sound ((Prod.mk.eta (p := pb)) ▸ hpb), hdec.1, hdec.2,
          trivial⟩
    · intro cs f rest h
      unfold parseForest at h
      rw [Option.bind_eq_some] at h
      obtain ⟨pt, hpt, h2⟩ := h
      split at h2
      · rw [Option.map_eq_some'] at h2
        obtain ⟨pf, hpf, heq⟩ := h2
        cases heq
        rw [WFf]
        exact ⟨ihS _ _ _ ((Prod.mk.eta (p := pt)) ▸ hpt),
          ihF _ _ _ ((Prod.mk.eta (p := pf)) ▸ hpf)⟩
      · cases h2
        rw [WFf]
        exact ⟨ihS _ _ _ ((Prod.mk.eta (p := pt)) ▸ hpt), trivial⟩
      · cases h2

end Genesis
namespace Genesis

theorem numberShape_head {lit : List Char} (h : NumberShape lit) :
    ∃ h0 t0, lit = h0 :: t0 ∧ IsWhitespace h0 = false := by
  obtain ⟨s, d, f, x, hs, ⟨hdne, hdall⟩, _, _, rfl⟩ := h
  rcases hs with rfl | ⟨c0, hc0, rfl⟩
  · obtain ⟨d0, ds, rfl⟩ := List.exists_cons_of_ne_nil hdne
    exact ⟨d0, ds ++ (f ++ x), by simp,
      digit_not_ws (hdall d0 (List.mem_cons_self _ _))⟩
  · exact ⟨c0, d ++ (f ++ x), by simp, sign_not_ws hc0⟩

theorem parseName_print {nm X : List Char} (h : NameFollow X) :
    parseName (printName nm ++ X) = some (nm, X) := by
  obtain ⟨r, rs, rfl, hr⟩ := h
  have hrws : IsWhitespace r = false := by
    rcases hr with rfl | rfl | rfl | rfl | rfl | rfl <;> decide
  have hrq : IsQuotemark r = false := by
    rcases hr with rfl | rfl | rfl | rfl | rfl | rfl <;> decide
  have hrl : IsLetter r = false := by
    rcases hr with rfl | rfl | rfl | rfl | rfl | rfl <;> decide
  have hra : IsAlphanum r = false := by
    rcases hr with rfl | rfl | rfl | rfl | rfl | rfl <;> decide
  cases nm with
  | nil =>
    show parseName (r :: rs) = some ([], r :: rs)
    unfold parseName
    dsimp only
    rw [skipWs_cons _ hrws]
    simp [hrq, hrl]
  | cons c0 nmrest =>
    by_cases hsym : isSymbolShape (c0 :: nmrest) = true
    · have hc0 : IsLetter c0 = true := (Bool.and_eq_true _ _ |>.mp hsym).1
      have hall : nmrest.all IsAlphanum = true := (Bool.and_eq_true _ _ |>.mp hsym).2
      have hpn : printName (c0 :: nmrest) = c0 :: nmrest := by
        simp [printName, hsym]
      rw [hpn]
      show parseName (c0 :: (nmrest ++ (r :: rs))) = _
      unfold parseName
      dsimp only
      rw [skipWs_cons _ (letter_not_ws hc0)]
      have hts : takeSyms (nmrest ++ (r :: rs)) = (nmrest, r :: rs) :=
        takeSyms_of (fun c hc => List.all_eq_true.mp hall c hc)
          (fun y hy => by cases hy; exact hra)
      simp [letter_not_quote hc0, hc0, hts]
    · have hpn : printName (c0 :: nmrest) =
          '\'' :: (escapeChars (c0 :: nmrest) ++ ['\'']) := by
        simp [printName, hsym]
      rw [hpn]
      show parseName ('\'' :: ((escapeChars (c0 :: nmrest) ++ ['\'']) ++ (r :: rs))) = _
      unfold parseName
      dsimp only
      rw [skipWs_cons _ (by decide)]
      have : ((escapeChars (c0 :: nmrest) ++ ['\'']) ++ (r :: rs)) =
          escapeChars (c0 :: nmrest) ++ '\'' :: (r :: rs) := by simp
      rw [this]
      simp only [show IsQuotemark '\'' = true from by decide, if_true, reduceIte]
      exact escape_roundtrip _ _

theorem parseBlen_print {bl : Option (List Char)} {Y : List Char}
    (hbl : ∀ lit, bl = some lit → NumberShape lit) (h : BlenFollow Y) :
    parseBlen (printBlen bl ++ Y) = some (bl, Y) := by
  obtain ⟨r, rs, rfl, hr⟩ := h
  cases bl with
  | none =>
    show parseBlen (r :: rs) = some (none, r :: rs)
    rcases hr with rfl | rfl | rfl | rfl | rfl <;> rfl
  | some lit =>
    have hshape := hbl lit rfl
    obtain ⟨h0, t0, rfl, h0ws⟩ := numberShape_head hshape
    have hdelim : DelimOk (r :: rs) := by
      intro r' hr'
      rw [List.head?_cons] at hr'
      injection hr' with hh
      subst hh
      rcases hr with rfl | rfl | rfl | rfl | rfl <;>
        exact ⟨by decide, by decide, by decide, by decide⟩
    show parseBlen (':' :: ((h0 :: t0) ++ (r :: rs))) = _
    unfold parseBlen
    dsimp only
    rw [skipWs_cons _ (by decide)]
    show (scanNumber (skipWs ((h0 :: t0) ++ (r :: rs)))).map _ = _
    rw [List.cons_append, skipWs_cons _ h0ws, ← List.cons_append,
      scanNumber_of hshape hdelim]
    rfl

theorem parseDecor_print_tags : ∀ (tgs : List (List Char)) (R : List Char) (fuel : Nat),
    (∀ g ∈ tgs, '\x7d' ∉ g) → RestOk R → tgs.length + 1 ≤ fuel →
    parseDecor fuel (printTgs tgs ++ R) = some (([], tgs), R) := by
  intro tgs
  induction tgs with
  | nil =>
    intro R fuel _ hR hf
    obtain ⟨r, rs, rfl, hr⟩ := hR
    cases fuel with
    | zero => omega
    | succ fu => rcases hr with rfl | rfl | rfl <;> rfl
  | cons g tgs ih =>
    intro R fuel htg hR hf
    cases fuel with
    | zero => omega
    | succ fu =>
      have hg : '\x7d' ∉ g := htg g (List.mem_cons_self _ _)
      show parseDecor (fu + 1) ((('\x7b' :: (g ++ ['\x7d'])) ++ printTgs tgs) ++ R) = _
      have hform : ((('\x7b' :: (g ++ ['\x7d'])) ++ printTgs tgs) ++ R) =
          '\x7b' :: (g ++ '\x7d' :: (printTgs tgs ++ R)) := by simp
      rw [hform]
      unfold parseDecor
      dsimp only
      rw [skipWs_cons _ (by decide)]
      show (takeUntil '\x7d' (g ++ '\x7d' :: (printTgs tgs ++ R))).bind _ = _
      rw [takeUntil_of hg]
      show (parseDecor fu (printTgs tgs ++ R)).map _ = _
      rw [ih R fu (fun y hy => htg y (List.mem_cons_of_mem _ hy)) hR
        (by simp only [List.length_cons] at hf; omega)]
      rfl

theorem parseDecor_print : ∀ (cms tgs : List (List Char)) (R : List Char) (fuel : Nat),
    (∀ c ∈ cms, ']' ∉ c) → (∀ g ∈ tgs, '\x7d' ∉ g) → RestOk R →
    cms.length + tgs.length + 1 ≤ fuel →
    parseDecor fuel (printCms cms ++ (printTgs tgs ++ R)) = some ((cms, tgs), R) := by
  intro cms
  induction cms with
  | nil =>
    intro tgs R fuel _ htg hR hf
    show parseDecor fuel ([] ++ (printTgs tgs ++ R)) = _
    rw [List.nil_append]
    exact parseDecor_print_tags tgs R fuel htg hR (by omega)
  | cons c cms ih =>
    intro tgs R fuel hcm htg hR hf
    cases fuel with
    | zero => omega
    | succ fu =>
      have hc : ']' ∉ c := hcm c (List.mem_cons_self _ _)
      show parseDecor (fu + 1) ((('[' :: (c ++ [']'])) ++ printCms cms) ++ (printTgs tgs ++ R)) = _
      have hform : ((('[' :: (c ++ [']'])) ++ printCms cms) ++ (printTgs tgs ++ R)) =
          '[' :: (c ++ ']' :: (printCms cms ++ (printTgs tgs ++ R))) := by simp
      rw [hform]
      unfold parseDecor
      dsimp only
      rw [skipWs_cons _ (by decide)]
      show (takeUntil ']' (c ++ ']' :: (printCms cms ++ (printTgs tgs ++ R)))).bind _ = _
      rw [takeUntil_of hc]
      show (parseDecor fu (printCms cms ++ (printTgs tgs ++ R))).map _ = _
      rw [ih tgs R fu (fun y hy => hcm y (List.mem_cons_of_mem _ hy)) htg hR
        (by simp only [List.length_cons] at hf; omega)]
      rfl

end Genesis
namespace Genesis

theorem blenFollow_of (cms tgs : List (List Char)) {R : List Char} (hR : RestOk R) :
    BlenFollow (printCms cms ++ (printTgs tgs ++ R)) := by
  cases cms with
  | cons c cms2 =>
    refine ⟨'[', (c ++ [']']) ++ (printCms cms2 ++ (printTgs tgs ++ R)), ?_,
      Or.inl rfl⟩
    show (('[' :: (c ++ [']'])) ++ printCms cms2) ++ (printTgs tgs ++ R) = _
    simp
  | nil =>
    cases tgs with
    | cons g tgs2 =>
      refine ⟨'\x7b', (g ++ ['\x7d']) ++ (printTgs tgs2 ++ R), ?_,
        Or.inr (Or.inl rfl)⟩
      show [] ++ ((('\x7b' :: (g ++ ['\x7d'])) ++ printTgs tgs2) ++ R) = _
      simp
    | nil =>
      obtain ⟨r, rs, rfl, hr⟩ := hR
      refine ⟨r, rs, by simp [printCms, printTgs], ?_⟩
      rcases hr with rfl | rfl | rfl
      · exact Or.inr (Or.inr (Or.inl rfl))
      · exact Or.inr (Or.inr (Or.inr (Or.inl rfl)))
      · exact Or.inr (Or.inr (Or.inr (Or.inr rfl)))

theorem nameFollow_of (bl : Option (List Char)) (cms tgs : List (List Char))
    {R : List Char} (hR : RestOk R) :
    NameFollow (printBlen bl ++ (printCms cms ++ (printTgs tgs ++ R))) := by
  cases bl with
  | some lit =>
    exact ⟨':', lit ++ (printCms cms ++ (printTgs tgs ++ R)),
      by simp [printBlen], Or.inl rfl⟩
  | none =>
    obtain ⟨r, rs, heq, hr⟩ := blenFollow_of cms tgs hR
    refine ⟨r, rs, by simp [printBlen, heq], ?_⟩
    rcases hr with rfl | rfl | rfl | rfl | rfl
    · exact Or.inr (Or.inl rfl)
    · exact Or.inr (Or.inr (Or.inl rfl))
    · exact Or.inr (Or.inr (Or.inr (Or.inl rfl)))
    · exact Or.inr (Or.inr (Or.inr (Or.inr (Or.inl rfl))))
    · exact Or.inr (Or.inr (Or.inr (Or.inr (Or.inr rfl))))

theorem subtreeTail_head (nm : List Char) {W : List Char} (hW : NameFollow W) :
    ∃ hd tl, printName nm ++ W = hd :: tl ∧ IsWhitespace hd = false ∧ hd ≠ '(' := by
  cases nm with
  | nil =>
    obtain ⟨r, rs, rfl, hr⟩ := hW
    refine ⟨r, rs, by simp [printName], ?_, ?_⟩ <;>
      rcases hr with rfl | rfl | rfl | rfl | rfl | rfl <;> decide
  | cons c0 nmrest =>
    by_cases hsym : isSymbolShape (c0 :: nmrest) = true
    · have hc0 : IsLetter c0 = true := (Bool.and_eq_true _ _ |>.mp hsym).1
      exact ⟨c0, nmrest ++ W, by simp [printName, hsym],
        letter_not_ws hc0, letter_not_lparen hc0⟩
    · exact ⟨'\'', escapeChars (c0 :: nmrest) ++ ['\''] ++ W,
        by simp [printName, hsym], by decide, by decide⟩

end Genesis
namespace Genesis

theorem parseTail_print (nm : List Char) (bl : Option (List Char))
    (cms tgs : List (List Char)) {R : List Char} (fuel : Nat) (ch : NForest)
    (hbl : ∀ lit, bl = some lit → NumberShape lit)
    (hcm : ∀ c ∈ cms, ']' ∉ c) (htg : ∀ g ∈ tgs, '\x7d' ∉ g)
    (hR : RestOk R) (hfu : cms.length + tgs.length + 1 ≤ fuel) :
    ((parseName (printName nm ++
        (printBlen bl ++ (printCms cms ++ (printTgs tgs ++ R))))).bind fun pn =>
      (parseBlen pn.2).bind fun pb =>
        (parseDecor fuel pb.2).map fun pd =>
          ((NTree.node pn.1 pb.1 pd.1.1 pd.1.2 ch : NTree), pd.2)) =
      some (NTree.node nm bl cms tgs ch, R) := by
  rw [parseName_print (nameFollow_of bl cms tgs hR)]
  show ((parseBlen (printBlen bl ++ (printCms cms ++ (printTgs tgs ++ R)))).bind
    fun pb => (parseDecor fuel pb.2).map fun pd =>
      ((NTree.node nm pb.1 pd.1.1 pd.1.2 ch : NTree), pd.2)) = _
  rw [parseBlen_print hbl (blenFollow_of cms tgs hR)]
  show ((parseDecor fuel (printCms cms ++ (printTgs tgs ++ R))).map fun pd =>
    ((NTree.node nm bl pd.1.1 pd.1.2 ch : NTree), pd.2)) = _
  rw [parseDecor_print cms tgs R fuel hcm htg hR hfu]
  rfl

end Genesis
namespace Genesis

theorem printS_leaf (nm : List Char) (bl : Option (List Char))
    (cms tgs : List (List Char)) :
    printS allFlags (NTree.node nm bl cms tgs NForest.nil) =
      printName nm ++ (printBlen bl ++ (printCms cms ++ printTgs tgs)) := by
  simp [printS, allFlags]

theorem printS_internal (nm : List Char) (bl : Option (List Char))
    (cms tgs : List (List Char)) (t : NTree) (rest : NForest) :
    printS allFlags (NTree.node nm bl cms tgs (NForest.cons t rest)) =
      '(' :: (printF allFlags (NForest.cons t rest) ++
        (')' :: (printName nm ++ (printBlen bl ++ (printCms cms ++ printTgs tgs))))) := by
  simp [printS, allFlags]

theorem printF_single (t : NTree) :
    printF allFlags (NForest.cons t NForest.nil) = printS allFlags t := by
  simp [printF]

theorem printF_cons (t u : NTree) (rest : NForest) :
    printF allFlags (NForest.cons t (NForest.cons u rest)) =
      printS allFlags t ++ (',' :: printF allFlags (NForest.cons u rest)) := by
  simp [printF]

mutual
theorem parseSubtree_print : ∀ (t : NTree) (R : List Char) (fuel : Nat),
    WFt t → RestOk R → fuelS t ≤ fuel →
    parseSubtree fuel (printS allFlags t ++ R) = some (t, R)
  | NTree.node nm bl cms tgs ch, R, fuel, wf, hR, hfu => by
    rw [WFt] at wf
    obtain ⟨hbl, hcm, htg, hch⟩ := wf
    cases fuel with
    | zero => rw [fuelS] at hfu; omega
    | succ fu =>
      rw [fuelS] at hfu
      have hdec : cms.length + tgs.length + 1 ≤ fu :=
        le_trans (Nat.le_max_right _ _) (Nat.le_of_succ_le_succ hfu)
      have hforest : fuelF ch ≤ fu :=
        le_trans (Nat.le_max_left _ _) (Nat.le_of_succ_le_succ hfu)
      cases ch with
      | nil =>
        rw [printS_leaf]
        have hnorm : (printName nm ++ (printBlen bl ++ (printCms cms ++ printTgs tgs))) ++ R =
            printName nm ++ (printBlen bl ++ (printCms cms ++ (printTgs tgs ++ R))) := by
          simp
        rw [hnorm]
        obtain ⟨hd, tl, hin, hws, hpar⟩ :=
          subtreeTail_head nm (nameFollow_of bl cms tgs hR)
        rw [hin]
        unfold parseSubtree
        dsimp only
        rw [skipWs_cons _ hws]
        split
        · rename_i cs1 heq
          rw [List.cons.injEq] at heq
          exact absurd heq.1 hpar
        · rw [← hin]
          exact parseTail_print nm bl cms tgs fu NForest.nil hbl hcm htg hR hdec
      | cons c1 crest =>
        rw [printS_internal]
        have hnorm : ('(' :: (printF allFlags (NForest.cons c1 crest) ++
            (')' :: (printName nm ++ (printBlen bl ++ (printCms cms ++ printTgs tgs)))))) ++ R =
            '(' :: (printF allFlags (NForest.cons c1 crest) ++
            (')' :: (printName nm ++ (printBlen bl ++ (printCms cms ++ (printTgs tgs ++ R)))))) := by
          simp
        rw [hnorm]
        unfold parseSubtree
        dsimp only
        rw [skipWs_cons _ (by decide)]
        show ((parseForest fu (printF allFlags (NForest.cons c1 crest) ++
          (')' :: (printName nm ++ (printBlen bl ++ (printCms cms ++ (printTgs tgs ++ R))))))).bind
          fun pf => (parseName pf.2).bind fun pn => (parseBlen pn.2).bind fun pb =>
            (parseDecor fu pb.2).map fun pd =>
              ((NTree.node pn.1 pb.1 pd.1.1 pd.1.2 pf.1 : NTree), pd.2)) = _
        rw [parseForest_print (NForest.cons c1 crest) _ fu hch
          (fun hne => NForest.noConfusion hne) hforest]
        show ((parseName (printName nm ++ (printBlen bl ++ (printCms cms ++ (printTgs tgs ++ R))))).bind
          fun pn => (parseBlen pn.2).bind fun pb =>
            (parseDecor fu pb.2).map fun pd =>
              ((NTree.node pn.1 pb.1 pd.1.1 pd.1.2 (NForest.cons c1 crest) : NTree), pd.2)) = _
        exact parseTail_print nm bl cms tgs fu (NForest.cons c1 crest) hbl hcm htg hR hdec
theorem parseForest_print : ∀ (f : NForest) (R : List Char) (fuel : Nat),
    WFf f → f ≠ NForest.nil → fuelF f ≤ fuel →
    parseForest fuel (printF allFlags f ++ (')' :: R)) = some (f, R)
  | NForest.nil, _, _, _, hne, _ => absurd rfl hne
  | NForest.cons t NForest.nil, R, fuel, wf, _, hfu => by
    rw [WFf] at wf
    cases fuel with
    | zero => rw [fuelF] at hfu; omega
    | succ fu =>
      rw [fuelF] at hfu
      have hst : fuelS t ≤ fu :=
        le_trans (Nat.le_max_left _ _) (Nat.le_of_succ_le_succ hfu)
      rw [printF_single]
      unfold parseForest
      rw [parseSubtree_print t (')' :: R) fu wf.1 ⟨')', R, rfl, Or.inr (Or.inl rfl)⟩ hst]
      show (match skipWs (')' :: R) with
        | ',' :: cs2 => (parseForest fu cs2).map fun (pf : NForest × List Char) => ((NForest.cons t pf.1 : NForest), pf.2)
        | ')' :: cs2 => some (NForest.cons t NForest.nil, cs2)
        | _ => none) = _
      rw [skipWs_cons _ (by decide)]
      rfl
  | NForest.cons t (NForest.cons u rest2), R, fuel, wf, _, hfu => by
    rw [WFf] at wf
    cases fuel with
    | zero => rw [fuelF] at hfu; omega
    | succ fu =>
      rw [fuelF] at hfu
      have hst : fuelS t ≤ fu :=
        le_trans (Nat.le_max_left _ _) (Nat.le_of_succ_le_succ hfu)
      have hsf : fuelF (NForest.cons u rest2) ≤ fu :=
        le_trans (Nat.le_max_right _ _) (Nat.le_of_succ_le_succ hfu)
      rw [printF_cons]
      have hnorm : (printS allFlags t ++ (',' :: printF allFlags (NForest.cons u rest2))) ++
          (')' :: R) = printS allFlags t ++
          (',' :: (printF allFlags (NForest.cons u rest2) ++ (')' :: R))) := by
        simp
      rw [hnorm]
      unfold parseForest
      rw [parseSubtree_print t (',' :: (printF allFlags (NForest.cons u rest2) ++ (')' :: R)))
        fu wf.1 ⟨',', _, rfl, Or.inl rfl⟩ hst]
      show (match skipWs (',' :: (printF allFlags (NForest.cons u rest2) ++ (')' :: R))) with
        | ',' :: cs2 => (parseForest fu cs2).map fun (pf : NForest × List Char) => ((NForest.cons t pf.1 : NForest), pf.2)
        | ')' :: cs2 => some (NForest.cons t NForest.nil, cs2)
        | _ => none) = _
      rw [skipWs_cons _ (by decide)]
      show ((parseForest fu (printF allFlags (NForest.cons u rest2) ++ (')' :: R))).map
        fun (pf : NForest × List Char) => ((NForest.cons t pf.1 : NForest), pf.2)) = _
      rw [parseForest_print (NForest.cons u rest2) R fu wf.2
        (fun hne => NForest.noConfusion hne) hsf]
      rfl
end

end Genesis
namespace Genesis

theorem length_le_printCms : ∀ cms : List (List Char),
    cms.length ≤ (printCms cms).length
  | [] => Nat.le_refl 0
  | c :: cs => by
    have ih := length_le_printCms cs
    simp only [printCms, List.flatMap_cons, List.length_append, List.length_cons] at ih ⊢
    omega

theorem length_le_printTgs : ∀ tgs : List (List Char),
    tgs.length ≤ (printTgs tgs).length
  | [] => Nat.le_refl 0
  | g :: gs => by
    have ih := length_le_printTgs gs
    simp only [printTgs, List.flatMap_cons, List.length_append, List.length_cons] at ih ⊢
    omega

theorem natMax_eq_right {a b : Nat} (h : a ≤ b) : Nat.max a b = b :=
  max_eq_right h

theorem natMax_eq_left {a b : Nat} (h : b ≤ a) : Nat.max a b = a :=
  max_eq_left h

mutual
theorem fuelS_le : ∀ t : NTree, fuelS t ≤ (printS allFlags t).length + 2
  | NTree.node nm bl cms tgs NForest.nil => by
    have hc := length_le_printCms cms
    have ht := length_le_printTgs tgs
    rw [fuelS, printS_leaf]
    simp only [fuelF, List.length_append]
    rw [natMax_eq_right (Nat.zero_le _)]
    omega
  | NTree.node nm bl cms tgs (NForest.cons c1 crest) => by
    have hf := fuelF_le (NForest.cons c1 crest)
    have hc := length_le_printCms cms
    have ht := length_le_printTgs tgs
    rw [fuelS, printS_internal]
    simp only [List.length_cons, List.length_append]
    rcases Nat.le_total (fuelF (NForest.cons c1 crest)) (cms.length + tgs.length + 1) with hm | hm
    · rw [natMax_eq_right hm]; omega
    · rw [natMax_eq_left hm]; omega
theorem fuelF_le : ∀ f : NForest, fuelF f ≤ (printF allFlags f).length + 3
  | NForest.nil => by rw [fuelF]; omega
  | NForest.cons t NForest.nil => by
    have hs := fuelS_le t
    rw [fuelF, printF_single]
    simp only [fuelF]
    rw [natMax_eq_left (Nat.zero_le _)]
    omega
  | NForest.cons t (NForest.cons u r2) => by
    have hs := fuelS_le t
    have hf := fuelF_le (NForest.cons u r2)
    rw [fuelF, printF_cons]
    simp only [List.length_append, List.length_cons]
    rcases Nat.le_total (fuelS t) (fuelF (NForest.cons u r2)) with hm | hm
    · rw [natMax_eq_right hm]; omega
    · rw [natMax_eq_left hm]; omega
end

/-- C1: round-trip — if parsing a Newick string succeeds with tree `t`,
then serializing `t` with all four print options enabled (names, branch
lengths, comments, tags) and re-parsing yields exactly `t` again: the same
tree, hence the same ring adjacency, payload values and comment/tag
placement. -/
theorem newick_roundtrip (S : String) (t : NTree)
    (h : parseNewick S = some t) :
    parseNewick (serializeNewick allFlags t) = some t := by
  have hwf : WFt t := by
    unfold parseNewick at h
    cases hps : parseSubtree (S.data.length + 1) S.data with
    | none => rw [hps] at h; cases h
    | some p =>
      rw [hps] at h
      have hsound := (parse_sound (S.data.length + 1)).1 S.data p.1 p.2
        ((Prod.mk.eta (p := p)).symm ▸ hps)
      have h2 : (match skipWs p.2 with
        | ';' :: rest2 => if skipWs rest2 = [] then some p.1 else none
        | _ => none) = some t := h
      split at h2
      · rename_i rest2 _
        by_cases hc : skipWs rest2 = []
        · rw [if_pos hc] at h2
          cases h2
          exact hsound
        · rw [if_neg hc] at h2
          cases h2
      · cases h2
  have hdata : (serializeNewick allFlags t).data = printS allFlags t ++ [';', '\n'] := rfl
  unfold parseNewick
  rw [hdata]
  have hfuel : fuelS t ≤ (printS allFlags t ++ [';', '\n']).length + 1 := by
    have := fuelS_le t
    simp only [List.length_append, List.length_cons, List.length_nil]
    omega
  rw [parseSubtree_print t [';', '\n'] _ hwf ⟨';', ['\n'], rfl, Or.inr (Or.inr rfl)⟩ hfuel]
  rfl

/-- Witness: the round trip at the concrete input `A;`. -/
theorem newick_roundtrip_witness :
    parseNewick (String.mk ['A', ';']) =
      some (NTree.node ['A'] none [] [] NForest.nil) ∧
    parseNewick (serializeNewick allFlags (NTree.node ['A'] none [] [] NForest.nil)) =
      some (NTree.node ['A'] none [] [] NForest.nil) :=
  ⟨rfl, newick_roundtrip (String.mk ['A', ';']) (NTree.node ['A'] none [] [] NForest.nil) rfl⟩

end Genesis
